import Mathlib

/-
Verification development for the `django_merge_model_objects` script.

The script is a single procedure `merge_model_objects(primary_object,
alias_objects, migrate_data, keep_old)` that merges duplicate ORM records
into a primary record: it validates types, re-points direct foreign keys,
many-to-many links, one-to-one links and reverse foreign keys from each
alias to the primary, back-fills blank fields on the primary from the
aliases, deletes each alias (unless `keep_old`), saves the primary and
returns it.

The embedding below models the ORM world explicitly: a `Record` is an
object with an id, a concrete class name and an attribute list; a `DB` is
the persistent store (a list of records plus a many-to-many link table);
a `Schema` carries the relationship metadata the script walks.  The
procedure itself (`merge_model_objects` and its phases) is a direct
translation of the Python source, statement by statement.
-/

namespace DjangoMerge

/-- Attribute values.  `vnone` is Python's `None`; the script's blankness
test is `val in [None, '']`. -/
inductive Val where
  | vnone : Val
  | vstr : String → Val
  | vint : Int → Val
  | vref : Nat → Val
deriving DecidableEq, Repr

/-- The script's blankness test `val in [None, '']`. -/
def isBlank : Val → Bool
  | Val.vnone => true
  | Val.vstr s => s = ""
  | _ => false

/-- A persisted or in-memory model instance: primary-key id, concrete
model-class name, and its attribute values. -/
structure Record where
  oid : Nat
  cls : String
  attrs : List (String × Val)
deriving DecidableEq, Repr

/-- Python `getattr(r, f)` for a model field.  A field that is absent
reads as `None` (the spec counts absent fields as blank). -/
def getAttr (r : Record) (f : String) : Val :=
  (r.attrs.lookup f).getD Val.vnone

/-- Replace the binding of a key in an attribute list, appending it when
the key is absent. -/
def setAttrList : List (String × Val) → String → Val → List (String × Val)
  | [], n, v => [(n, v)]
  | (k, w) :: rest, n, v =>
      if k = n then (n, v) :: rest else (k, w) :: setAttrList rest n v

/-- Python `setattr(r, f, v)`. -/
def setAttr (r : Record) (f : String) (v : Val) : Record :=
  { r with attrs := setAttrList r.attrs f v }

/-- Metadata of one entry of `alias_object._meta.local_fields`.
`attname` and `is_auto` come straight from the source (`field.attname`,
`isinstance(field, fields.AutoField)`).

Modelled from the spec: the source calls `related_object.get_accessor_name()`
and `related_object.field.name` on each local field and queries the related
side; those ORM metadata accessors are not defined under src/, and the spec
reads this loop as acting on "every direct-reference (single-target) field
other than an auto-generated identity field on the alias's related side".
`accessor` (`None` when there is no reverse accessor), `field_name` and
`related_cls` model that related-side descriptor data. -/
structure LocalField where
  attname : String
  is_auto : Bool
  accessor : Option String
  field_name : String
  related_cls : String
deriving DecidableEq, Repr

/-- Modelled from the spec: a relationship descriptor as returned by the
helpers `get_all_related_many_to_many_objects`,
`get_all_related_one_to_one_objects` and
`get_all_related_one_to_many_objects`, which are called by the source but
not defined under src/.  Per the spec these enumerate how other record
types reference the alias's type: `accessor` is `get_accessor_name()`
(`None` in the symmetric many-to-many case with no reverse accessor),
`field_name` is `.field.name` on the related model, and `related_cls` is
the related model's class. -/
structure RelDesc where
  accessor : Option String
  field_name : String
  related_cls : String
deriving DecidableEq, Repr

/-- Per-class metadata: local fields plus the relationship descriptors of
each category, and the names of generic-relationship fields declared on
the class (collected by the source's `generic_fields` loop). -/
structure ModelMeta where
  name : String
  local_fields : List LocalField
  m2m_descs : List RelDesc
  o2o_descs : List RelDesc
  rev_fk_descs : List RelDesc
  generic_field_names : List String
deriving DecidableEq, Repr

/-- The host ORM's schema registry (`django.apps.apps`): the known model
classes and the direct subclass edges of the class hierarchy.  The root
model base class is the class named `"Model"`. -/
structure Schema where
  models : List ModelMeta
  parents : List (String × String)
deriving DecidableEq, Repr

/-- Look up the metadata of a class; an unknown class has empty metadata. -/
def modelMeta (sc : Schema) (c : String) : ModelMeta :=
  (sc.models.find? (fun m => m.name == c)).getD ⟨c, [], [], [], [], []⟩

/-- Reflexive-transitive reachability in the subclass graph, with fuel. -/
def issubclassAux (ps : List (String × String)) : Nat → String → String → Bool
  | 0, c, d => c == d
  | n + 1, c, d => c == d || ps.any (fun e => e.1 == c && issubclassAux ps n e.2 d)

/-- Python `issubclass(c, d)` over the schema's class hierarchy.
`isinstance(x, C)` is `issubclass sc x.cls C`. -/
def issubclass (sc : Schema) (c d : String) : Bool :=
  issubclassAux sc.parents sc.parents.length c d

/-- The source's lines 37-40: collect every `GenericForeignKey` field of
every model in the registry, as (class name, field name) pairs.  The
source computes this list and never uses it afterwards. -/
def generic_fields (sc : Schema) : List (String × String) :=
  sc.models.foldl (fun acc m => acc ++ m.generic_field_names.map (fun f => (m.name, f))) []

/-- The persistent store: all saved records, and the many-to-many link
table.  A link `(f, o, m)` says the collection field `f` of the record
with id `o` contains the record with id `m`. -/
structure DB where
  records : List Record
  m2mLinks : List (String × Nat × Nat)
deriving DecidableEq, Repr

/-- `obj.save()` for an already-persisted object: update the stored row
with the same id. -/
def saveRecord (db : DB) (o : Record) : DB :=
  { db with records := db.records.map (fun r => if r.oid = o.oid then o else r) }

/-- `obj.delete()`: remove the stored row with the given id. -/
def deleteRecord (db : DB) (oid : Nat) : DB :=
  { db with records := db.records.filter (fun r => r.oid ≠ oid) }

/-- Membership test in the many-to-many link table. -/
def linkExists (db : DB) (f : String) (o m : Nat) : Bool :=
  db.m2mLinks.contains (f, o, m)

/-- `getattr(obj, f).remove(x)` on a many-to-many collection. -/
def removeLink (db : DB) (f : String) (o m : Nat) : DB :=
  { db with m2mLinks := db.m2mLinks.filter (fun l => ¬(l.1 = f ∧ l.2.1 = o ∧ l.2.2 = m)) }

/-- `getattr(obj, f).add(x)` on a many-to-many collection (a no-op when
the link already exists). -/
def addLink (db : DB) (f : String) (o m : Nat) : DB :=
  if linkExists db f o m then db else { db with m2mLinks := db.m2mLinks ++ [(f, o, m)] }

/-- One re-pointing pass (source lines 55-58 and 89-92): fetch every
record of class `cls` whose field `fld` references `aOid`, set that field
to the primary and save each record. -/
def repointAll (db : DB) (cls fld : String) (aOid pOid : Nat) : DB :=
  (db.records.filter (fun r => r.cls == cls && getAttr r fld == Val.vref aOid)).foldl
    (fun d obj => saveRecord d (setAttr obj fld (Val.vref pOid))) db

/-- Source lines 47-58: with `migrate_data` set, walk the alias's local
fields, skip `AutoField`s and fields without a reverse accessor, and
re-point each referencing record to the primary. -/
def directPhase (lfs : List LocalField) (aOid pOid : Nat) (db : DB) : DB :=
  lfs.foldl (fun d f =>
    if f.is_auto then d
    else if f.accessor.isSome then repointAll d f.related_cls f.field_name aOid pOid
    else d) db

/-- Source lines 61-73: one many-to-many descriptor.  With a reverse
accessor, fetch the records whose collection contains the alias; in the
symmetric case (no reverse accessor) fetch the members of the alias's own
collection.  For each fetched record, remove the alias from its
collection and add the primary. -/
def m2mStep (db : DB) (d : RelDesc) (aOid pOid : Nat) : DB :=
  match d.accessor with
  | some _ =>
      (db.records.filter (fun r => r.cls == d.related_cls && linkExists db d.field_name r.oid aOid)).foldl
        (fun db' obj => addLink (removeLink db' d.field_name obj.oid aOid) d.field_name obj.oid pOid) db
  | none =>
      (db.records.filter (fun r => linkExists db d.field_name aOid r.oid)).foldl
        (fun db' obj => addLink (removeLink db' d.field_name obj.oid aOid) d.field_name obj.oid pOid) db

/-- Source line 61 loop: all many-to-many descriptors. -/
def m2mPhase (ds : List RelDesc) (aOid pOid : Nat) (db : DB) : DB :=
  ds.foldl (fun d desc => m2mStep d desc aOid pOid) db

/-- Source lines 76-83: one one-to-one descriptor.  When the alias has a
linked record (`hasattr(alias_object, alias_varname)`) and the primary
does not (`not hasattr(primary_object, alias_varname)`), re-point the
linked record to the primary and save it; otherwise do nothing. -/
def o2oStep (db : DB) (d : RelDesc) (aOid pOid : Nat) : DB :=
  if d.accessor.isSome then
    match db.records.find? (fun r => r.cls == d.related_cls && getAttr r d.field_name == Val.vref aOid) with
    | some related_alias_object =>
        if db.records.any (fun r => r.cls == d.related_cls && getAttr r d.field_name == Val.vref pOid) then db
        else saveRecord db (setAttr related_alias_object d.field_name (Val.vref pOid))
    | none => db
  else db

/-- Source line 76 loop: all one-to-one descriptors. -/
def o2oPhase (ds : List RelDesc) (aOid pOid : Nat) (db : DB) : DB :=
  ds.foldl (fun d desc => o2oStep d desc aOid pOid) db

/-- Source lines 86-92: reverse foreign keys: for each descriptor with a
reverse accessor, re-point every referencing record to the primary. -/
def revFkPhase (ds : List RelDesc) (aOid pOid : Nat) (db : DB) : DB :=
  ds.foldl (fun d desc =>
    if desc.accessor.isSome then repointAll d desc.related_cls desc.field_name aOid pOid
    else d) db

/-- Source lines 95-101: copy the alias's non-blank values into the
still-blank fields of the in-memory primary. -/
def backfill (alias_object : Record) (blanks : List String) (q : Record) : Record :=
  blanks.foldl (fun q' f =>
    let val := getAttr alias_object f
    if isBlank val then q' else setAttr q' f val) q

/-- Source lines 45-104: the body of `for alias_object in alias_objects`.
The state threads the store, the in-memory primary and the remaining
back-fill candidates (`blank_local_fields`). -/
def process_alias (sc : Schema) (migrate_data keep_old : Bool)
    (st : DB × Record × List String) (alias_object : Record) : DB × Record × List String :=
  let db0 := st.1
  let primary_object := st.2.1
  let blanks := st.2.2
  let meta := modelMeta sc alias_object.cls
  let db1 := if migrate_data then directPhase meta.local_fields alias_object.oid primary_object.oid db0 else db0
  let db2 := m2mPhase meta.m2m_descs alias_object.oid primary_object.oid db1
  let db3 := o2oPhase meta.o2o_descs alias_object.oid primary_object.oid db2
  let db4 := revFkPhase meta.rev_fk_descs alias_object.oid primary_object.oid db3
  let primary2 := backfill alias_object blanks primary_object
  let blanks2 := blanks.filter (fun f => isBlank (getAttr alias_object f))
  let db5 := if keep_old then db4 else deleteRecord db4 alias_object.oid
  (db5, primary2, blanks2)

/-- The merge procedure (source lines 8-106).  Returns the raised error or
the returned primary, together with the resulting store. -/
def merge_model_objects (sc : Schema) (db : DB) (primary_object : Record)
    (alias_objects : List Record) (migrate_data keep_old : Bool) :
    Except String Record × DB :=
  let primary_cls := primary_object.cls
  if ¬ issubclass sc primary_cls "Model" then
    (Except.error "Only django.db.models.Model subclasses can be merged", db)
  else if alias_objects.any (fun a => !issubclass sc a.cls primary_cls) then
    (Except.error "Only models of same class can be merged", db)
  else
    let _generic_fields := generic_fields sc
    let blank_local_fields :=
      ((modelMeta sc primary_cls).local_fields.filter
        (fun f => isBlank (getAttr primary_object f.attname))).map LocalField.attname
    let st := alias_objects.foldl (process_alias sc migrate_data keep_old)
      (db, primary_object, blank_local_fields)
    (Except.ok st.2.1, saveRecord st.1 st.2.1)

/-- Boolean success test on the merge's result. -/
def isOkResult : Except String Record → Bool
  | Except.ok _ => true
  | Except.error _ => false

/-! ### Basic lemmas about attributes and the store operations -/

theorem lookup_setAttrList_same (l : List (String × Val)) (n : String) (v : Val) :
    (setAttrList l n v).lookup n = some v := by
  induction l with
  | nil => simp [setAttrList, List.lookup]
  | cons kv rest ih =>
    obtain ⟨k, w⟩ := kv
    by_cases h : k = n
    · subst h; simp [setAttrList, List.lookup]
    · have hnk : (n == k) = false := by simp [Ne.symm h]
      simp [setAttrList, h, List.lookup, hnk, ih]

theorem lookup_setAttrList_ne (l : List (String × Val)) (n g : String) (v : Val)
    (h : g ≠ n) : (setAttrList l n v).lookup g = l.lookup g := by
  have hgn : (g == n) = false := by simp [h]
  induction l with
  | nil => simp [setAttrList, List.lookup, hgn]
  | cons kv rest ih =>
    obtain ⟨k, w⟩ := kv
    by_cases hk : k = n
    · subst hk
      simp [setAttrList, List.lookup, hgn]
    · by_cases hg : g = k
      · have : (g == k) = true := by simp [hg]
        simp [setAttrList, hk, List.lookup, this]
      · have : (g == k) = false := by simp [hg]
        simp [setAttrList, hk, List.lookup, this, ih]

theorem getAttr_setAttr_same (r : Record) (f : String) (v : Val) :
    getAttr (setAttr r f v) f = v := by
  simp [getAttr, setAttr, lookup_setAttrList_same]

theorem getAttr_setAttr_ne (r : Record) (f g : String) (v : Val) (h : g ≠ f) :
    getAttr (setAttr r f v) g = getAttr r g := by
  simp [getAttr, setAttr, lookup_setAttrList_ne _ _ _ _ h]

theorem setAttr_oid (r : Record) (f : String) (v : Val) : (setAttr r f v).oid = r.oid := rfl

theorem setAttr_cls (r : Record) (f : String) (v : Val) : (setAttr r f v).cls = r.cls := rfl

theorem lookup_mem {l : List (String × Val)} {f : String} {v : Val}
    (h : l.lookup f = some v) : (f, v) ∈ l := by
  induction l with
  | nil => simp [List.lookup] at h
  | cons kv rest ih =>
    obtain ⟨k, w⟩ := kv
    by_cases hk : f = k
    · have hb : (f == k) = true := by simp [hk]
      simp [List.lookup, hb] at h
      simp [hk, h]
    · have hb : (f == k) = false := by simp [hk]
      simp [List.lookup, hb] at h
      exact List.mem_cons_of_mem _ (ih h)

/-- Any attribute read is either the default `None` or a value stored in
the attribute list. -/
theorem getAttr_cases (r : Record) (f : String) :
    getAttr r f = Val.vnone ∨ (f, getAttr r f) ∈ r.attrs := by
  unfold getAttr
  cases h : r.attrs.lookup f with
  | none => simp
  | some v => simp [lookup_mem h]

theorem oid_inj {l : List Record} (hnd : (l.map Record.oid).Nodup) {a b : Record}
    (ha : a ∈ l) (hb : b ∈ l) (h : a.oid = b.oid) : a = b :=
  List.inj_on_of_nodup_map hnd ha hb h

theorem saveRecord_records (db : DB) (o : Record) :
    (saveRecord db o).records = db.records.map (fun r => if r.oid = o.oid then o else r) := rfl

theorem saveRecord_links (db : DB) (o : Record) : (saveRecord db o).m2mLinks = db.m2mLinks := rfl

/-- A pointwise-oid-preserving map preserves the id sequence. -/
theorem oidmap_of_pointwise {l : List Record} {g : Record → Record}
    (h : ∀ r ∈ l, (g r).oid = r.oid) : (l.map g).map Record.oid = l.map Record.oid := by
  rw [List.map_map]
  exact List.map_congr_left (fun r hr => h r hr)

theorem saveRecord_oidmap (db : DB) (o : Record) :
    (saveRecord db o).records.map Record.oid = db.records.map Record.oid := by
  rw [saveRecord_records]
  apply oidmap_of_pointwise
  intro r _
  by_cases h : r.oid = o.oid <;> simp [h]

theorem deleteRecord_records (db : DB) (x : Nat) :
    (deleteRecord db x).records = db.records.filter (fun r => r.oid ≠ x) := rfl

theorem deleteRecord_links (db : DB) (x : Nat) : (deleteRecord db x).m2mLinks = db.m2mLinks := rfl

theorem mem_deleteRecord {db : DB} {x : Nat} {r : Record}
    (h : r ∈ (deleteRecord db x).records) : r ∈ db.records ∧ r.oid ≠ x := by
  rw [deleteRecord_records] at h
  have := List.mem_filter.1 h
  exact ⟨this.1, by simpa using this.2⟩

theorem deleteRecord_oidmap_sublist (db : DB) (x : Nat) :
    ((deleteRecord db x).records.map Record.oid).Sublist (db.records.map Record.oid) := by
  rw [deleteRecord_records]
  exact (List.filter_sublist _).map _

/-- Generic preservation through a left fold over store operations. -/
theorem foldl_links_eq {α : Type} (f : DB → α → DB)
    (h : ∀ d a, (f d a).m2mLinks = d.m2mLinks) :
    ∀ (l : List α) (db : DB), ((l.foldl f db).m2mLinks = db.m2mLinks) := by
  intro l
  induction l with
  | nil => intro db; rfl
  | cons a l ih => intro db; rw [List.foldl_cons, ih, h]

theorem foldl_records_eq {α : Type} (f : DB → α → DB)
    (h : ∀ d a, (f d a).records = d.records) :
    ∀ (l : List α) (db : DB), ((l.foldl f db).records = db.records) := by
  intro l
  induction l with
  | nil => intro db; rfl
  | cons a l ih => intro db; rw [List.foldl_cons, ih, h]

theorem foldl_oidmap_eq {α : Type} (f : DB → α → DB)
    (h : ∀ d a, (f d a).records.map Record.oid = d.records.map Record.oid) :
    ∀ (l : List α) (db : DB),
      ((l.foldl f db).records.map Record.oid = db.records.map Record.oid) := by
  intro l
  induction l with
  | nil => intro db; rfl
  | cons a l ih => intro db; rw [List.foldl_cons, ih, h]

/-- Folding `obj.save()` over a queried snapshot list: with distinct ids,
the result replaces exactly the snapshot rows by their updated versions. -/
theorem foldl_save_setAttr (fld : String) (v : Val) :
    ∀ (os : List Record) (db : DB),
      (∀ o ∈ os, o ∈ db.records) →
      (db.records.map Record.oid).Nodup →
      (os.map Record.oid).Nodup →
      (os.foldl (fun d o => saveRecord d (setAttr o fld v)) db).records
        = db.records.map (fun r => if os.any (fun o => o.oid == r.oid) then setAttr r fld v else r) := by
  intro os
  induction os with
  | nil =>
    intro db _ _ _
    simp
  | cons o os ih =>
    intro db hsub hnd hosnd
    rw [List.foldl_cons]
    have hstep : (saveRecord db (setAttr o fld v)).records
        = db.records.map (fun r => if r.oid = o.oid then setAttr r fld v else r) := by
      rw [saveRecord_records]
      apply List.map_congr_left
      intro r hr
      by_cases h : r.oid = o.oid
      · have hro : r = o := oid_inj hnd hr (hsub o (List.mem_cons_self o os)) h
        simp [setAttr_oid, h, hro]
      · simp [setAttr_oid, h]
    have hpt : ∀ r ∈ db.records, (if r.oid = o.oid then setAttr r fld v else r).oid = r.oid := by
      intro r _
      by_cases h : r.oid = o.oid <;> simp [h, setAttr_oid]
    have hnd' : ((saveRecord db (setAttr o fld v)).records.map Record.oid).Nodup := by
      rw [hstep, oidmap_of_pointwise hpt]; exact hnd
    have hsub' : ∀ x ∈ os, x ∈ (saveRecord db (setAttr o fld v)).records := by
      intro x hx
      rw [hstep]
      have hxmem : x ∈ db.records := hsub x (List.mem_cons_of_mem _ hx)
      have hxo : x.oid ≠ o.oid := by
        intro hxy
        have : o.oid ∈ os.map Record.oid := by
          exact List.mem_map.2 ⟨x, hx, hxy⟩
        exact (List.nodup_cons.1 hosnd).1 this
      exact List.mem_map.2 ⟨x, hxmem, by simp [hxo]⟩
    rw [ih _ hsub' hnd' (List.nodup_cons.1 hosnd).2, hstep, List.map_map]
    apply List.map_congr_left
    intro r hr
    by_cases h : r.oid = o.oid
    · have hnotos : os.any (fun o' => o'.oid == r.oid) = false := by
        rw [List.any_eq_false]
        intro o' ho'
        have : o'.oid ≠ r.oid := by
          intro he
          have : o.oid ∈ os.map Record.oid := by
            exact List.mem_map.2 ⟨o', ho', by rw [he, h]⟩
          exact (List.nodup_cons.1 hosnd).1 this
        simp [this]
      simp only [Function.comp_apply, if_pos h, setAttr_oid, hnotos]
      simp [h]
    · have : (o.oid == r.oid) = false := by
        simp [Ne.symm h]
      simp only [Function.comp_apply, if_neg h, List.any_cons, this, Bool.false_or]

theorem repointAll_records (db : DB) (cls fld : String) (aOid pOid : Nat)
    (hnd : (db.records.map Record.oid).Nodup) :
    (repointAll db cls fld aOid pOid).records
      = db.records.map (fun r =>
          if r.cls == cls && getAttr r fld == Val.vref aOid
          then setAttr r fld (Val.vref pOid) else r) := by
  unfold repointAll
  have hsub : ∀ o ∈ db.records.filter (fun r => r.cls == cls && getAttr r fld == Val.vref aOid),
      o ∈ db.records := fun o ho => (List.mem_filter.1 ho).1
  have hosnd : ((db.records.filter (fun r => r.cls == cls && getAttr r fld == Val.vref aOid)).map
      Record.oid).Nodup := hnd.sublist ((List.filter_sublist _).map _)
  rw [foldl_save_setAttr _ _ _ _ hsub hnd hosnd]
  apply List.map_congr_left
  intro r hr
  by_cases hp : (r.cls == cls && getAttr r fld == Val.vref aOid) = true
  · have hrf : r ∈ db.records.filter (fun r => r.cls == cls && getAttr r fld == Val.vref aOid) :=
      List.mem_filter.2 ⟨hr, hp⟩
    have : (db.records.filter (fun r => r.cls == cls && getAttr r fld == Val.vref aOid)).any
        (fun o => o.oid == r.oid) = true := List.any_eq_true.2 ⟨r, hrf, by simp⟩
    simp [this, hp]
  · have : (db.records.filter (fun r => r.cls == cls && getAttr r fld == Val.vref aOid)).any
        (fun o => o.oid == r.oid) = false := by
      rw [List.any_eq_false]
      intro o ho
      have hom := List.mem_filter.1 ho
      intro hoe
      have : o = r := oid_inj hnd hom.1 hr (by simpa using hoe)
      rw [this] at hom
      exact hp hom.2
    simp [this, hp]

theorem repointAll_links (db : DB) (cls fld : String) (aOid pOid : Nat) :
    (repointAll db cls fld aOid pOid).m2mLinks = db.m2mLinks := by
  unfold repointAll
  exact foldl_links_eq (fun d obj => saveRecord d (setAttr obj fld (Val.vref pOid)))
    (fun d a => saveRecord_links d _) _ db

theorem repointAll_oidmap (db : DB) (cls fld : String) (aOid pOid : Nat) :
    (repointAll db cls fld aOid pOid).records.map Record.oid = db.records.map Record.oid := by
  unfold repointAll
  exact foldl_oidmap_eq (fun d obj => saveRecord d (setAttr obj fld (Val.vref pOid)))
    (fun d a => saveRecord_oidmap d _) _ db

/-! ### Per-record view of the re-pointing phases -/

/-- Per-record effect of one re-pointing descriptor: the first component
says whether the descriptor acts at all (not an `AutoField`, reverse
accessor present), the second is the related class, the third the field
name on the related model. -/
def repTriple (aOid pOid : Nat) (r : Record) (t : Bool × String × String) : Record :=
  if t.1 then
    (if r.cls == t.2.1 && getAttr r t.2.2 == Val.vref aOid
     then setAttr r t.2.2 (Val.vref pOid) else r)
  else r

/-- The descriptor data of a local field, as used by `directPhase`. -/
def lfTriple (f : LocalField) : Bool × String × String :=
  (!f.is_auto && f.accessor.isSome, f.related_cls, f.field_name)

/-- The descriptor data of a relationship descriptor, as used by
`revFkPhase`. -/
def rdTriple (d : RelDesc) : Bool × String × String :=
  (d.accessor.isSome, d.related_cls, d.field_name)

theorem repTriple_oid (aOid pOid : Nat) (r : Record) (t : Bool × String × String) :
    (repTriple aOid pOid r t).oid = r.oid := by
  unfold repTriple
  split
  · split
    · rw [setAttr_oid]
    · rfl
  · rfl

theorem repTriple_cls (aOid pOid : Nat) (r : Record) (t : Bool × String × String) :
    (repTriple aOid pOid r t).cls = r.cls := by
  unfold repTriple
  split
  · split
    · rw [setAttr_cls]
    · rfl
  · rfl

theorem repTriple_getAttr (aOid pOid : Nat) (r : Record) (t : Bool × String × String)
    (f0 : String) :
    getAttr (repTriple aOid pOid r t) f0 = getAttr r f0 ∨
      getAttr (repTriple aOid pOid r t) f0 = Val.vref pOid := by
  unfold repTriple
  split
  · split
    · by_cases hf : f0 = t.2.2
      · rw [hf]; right; exact getAttr_setAttr_same r t.2.2 _
      · left; exact getAttr_setAttr_ne r _ f0 _ hf
    · left; rfl
  · left; rfl

theorem foldl_repTriple_oid (aOid pOid : Nat) :
    ∀ (ts : List (Bool × String × String)) (r : Record),
      ((ts.foldl (repTriple aOid pOid) r).oid = r.oid) := by
  intro ts
  induction ts with
  | nil => intro r; rfl
  | cons t ts ih => intro r; rw [List.foldl_cons, ih, repTriple_oid]

theorem foldl_repTriple_cls (aOid pOid : Nat) :
    ∀ (ts : List (Bool × String × String)) (r : Record),
      ((ts.foldl (repTriple aOid pOid) r).cls = r.cls) := by
  intro ts
  induction ts with
  | nil => intro r; rfl
  | cons t ts ih => intro r; rw [List.foldl_cons, ih, repTriple_cls]

theorem foldl_repTriple_shape (aOid pOid : Nat) :
    ∀ (ts : List (Bool × String × String)) (r : Record) (f0 : String),
      getAttr (ts.foldl (repTriple aOid pOid) r) f0 = getAttr r f0 ∨
        getAttr (ts.foldl (repTriple aOid pOid) r) f0 = Val.vref pOid := by
  intro ts
  induction ts with
  | nil => intro r f0; left; rfl
  | cons t ts ih =>
    intro r f0
    rw [List.foldl_cons]
    rcases ih (repTriple aOid pOid r t) f0 with h | h
    · rw [h]; exact repTriple_getAttr aOid pOid r t f0
    · right; exact h

theorem repTriple_clears_step (aOid pOid : Nat) (r : Record) (t : Bool × String × String)
    (hact : t.1 = true) (hcls : r.cls = t.2.1) (hap : aOid ≠ pOid) :
    getAttr (repTriple aOid pOid r t) t.2.2 ≠ Val.vref aOid := by
  unfold repTriple
  rw [hact, if_pos rfl]
  by_cases h2 : (r.cls == t.2.1 && getAttr r t.2.2 == Val.vref aOid) = true
  · rw [if_pos h2, getAttr_setAttr_same]
    intro he
    exact hap (by injection he.symm)
  · rw [if_neg h2]
    intro he
    apply h2
    simp [hcls, he]

theorem foldl_repTriple_clears (aOid pOid : Nat) (hap : aOid ≠ pOid) :
    ∀ (ts : List (Bool × String × String)) (r : Record) (f0 : String),
      (∃ t ∈ ts, t.1 = true ∧ t.2.1 = r.cls ∧ t.2.2 = f0) →
      getAttr (ts.foldl (repTriple aOid pOid) r) f0 ≠ Val.vref aOid := by
  intro ts
  induction ts with
  | nil => intro r f0 hex; rcases hex with ⟨t, ht, _⟩; simp at ht
  | cons t ts ih =>
    intro r f0 hex
    rcases hex with ⟨t', ht', hact, hcls, hfld⟩
    rw [List.foldl_cons]
    rcases List.mem_cons.1 ht' with h | h
    · subst h
      have hstep : getAttr (repTriple aOid pOid r t') t'.2.2 ≠ Val.vref aOid :=
        repTriple_clears_step aOid pOid r t' hact hcls.symm hap
      rcases foldl_repTriple_shape aOid pOid ts (repTriple aOid pOid r t') f0 with h2 | h2
      · rw [h2, ← hfld]; exact hstep
      · rw [h2]
        intro he
        exact hap (by injection he.symm) |>.elim
    · exact ih (repTriple aOid pOid r t) f0
        ⟨t', h, hact, by rw [hcls, repTriple_cls], hfld⟩

theorem foldl_repTriple_sets (aOid pOid : Nat) (hap : aOid ≠ pOid)
    (ts : List (Bool × String × String)) (r : Record) (t : Bool × String × String)
    (ht : t ∈ ts) (hact : t.1 = true) (hcls : t.2.1 = r.cls)
    (hval : getAttr r t.2.2 = Val.vref aOid) :
    getAttr (ts.foldl (repTriple aOid pOid) r) t.2.2 = Val.vref pOid := by
  have hne := foldl_repTriple_clears aOid pOid hap ts r t.2.2 ⟨t, ht, hact, hcls, rfl⟩
  rcases foldl_repTriple_shape aOid pOid ts r t.2.2 with h | h
  · rw [h, hval] at hne ⊢
    exact absurd rfl hne
  · exact h

/-- A guarded fold of re-pointing passes acts record-by-record. -/
theorem guardedRepoint_char (aOid pOid : Nat) {α : Type} (g : α → Bool × String × String)
    (step : DB → α → DB)
    (hstep : ∀ db x, step db x =
      if (g x).1 then repointAll db (g x).2.1 (g x).2.2 aOid pOid else db) :
    ∀ (l : List α) (db : DB), (db.records.map Record.oid).Nodup →
      ((l.foldl step db).records
          = db.records.map (fun r => (l.map g).foldl (repTriple aOid pOid) r))
      ∧ ((l.foldl step db).records.map Record.oid = db.records.map Record.oid)
      ∧ ((l.foldl step db).m2mLinks = db.m2mLinks) := by
  intro l
  induction l with
  | nil =>
    intro db _
    refine ⟨?_, rfl, rfl⟩
    simp
  | cons x l ih =>
    intro db hnd
    have hrec : (step db x).records
        = db.records.map (fun r => repTriple aOid pOid r (g x)) := by
      rw [hstep]
      by_cases h : (g x).1 = true
      · rw [if_pos h, repointAll_records _ _ _ _ _ hnd]
        apply List.map_congr_left
        intro r _
        unfold repTriple
        rw [h, if_pos rfl]
      · have h' : (g x).1 = false := by
          cases hgx : (g x).1
          · rfl
          · exact absurd hgx h
        rw [if_neg (by rw [h']; exact Bool.false_ne_true)]
        have hid : ∀ r ∈ db.records, r = repTriple aOid pOid r (g x) := by
          intro r _
          unfold repTriple
          rw [h']
          simp
        have hmap : db.records.map (fun r => repTriple aOid pOid r (g x)) = db.records := by
          have h2 : db.records.map (fun r => repTriple aOid pOid r (g x))
              = db.records.map (fun r => r) :=
            List.map_congr_left (fun r hr => (hid r hr).symm)
          rw [h2, List.map_id']
        exact hmap.symm
    have hoid : (step db x).records.map Record.oid = db.records.map Record.oid := by
      rw [hrec]
      exact oidmap_of_pointwise (fun r _ => repTriple_oid aOid pOid r (g x))
    have hlinks : (step db x).m2mLinks = db.m2mLinks := by
      rw [hstep]
      by_cases h : (g x).1 = true
      · rw [if_pos h]; exact repointAll_links _ _ _ _ _
      · have h' : (g x).1 = false := by
          cases hgx : (g x).1
          · rfl
          · exact absurd hgx h
        rw [if_neg (by rw [h']; exact Bool.false_ne_true)]
    have hnd' : ((step db x).records.map Record.oid).Nodup := by rw [hoid]; exact hnd
    obtain ⟨ih1, ih2, ih3⟩ := ih (step db x) hnd'
    refine ⟨?_, by rw [List.foldl_cons, ih2, hoid], by rw [List.foldl_cons, ih3, hlinks]⟩
    rw [List.foldl_cons, ih1, hrec, List.map_map]
    apply List.map_congr_left
    intro r _
    simp [Function.comp]

theorem directPhase_step_eq (aOid pOid : Nat) :
    ∀ (db : DB) (f : LocalField),
      (if f.is_auto then db
       else if f.accessor.isSome then repointAll db f.related_cls f.field_name aOid pOid
       else db)
      = if (lfTriple f).1 then repointAll db (lfTriple f).2.1 (lfTriple f).2.2 aOid pOid
        else db := by
  intro db f
  unfold lfTriple
  by_cases h1 : f.is_auto
  · simp [h1]
  · by_cases h2 : f.accessor.isSome = true
    · simp [h1, h2]
    · simp [h1, h2]

theorem directPhase_char (lfs : List LocalField) (aOid pOid : Nat) (db : DB)
    (hnd : (db.records.map Record.oid).Nodup) :
    ((directPhase lfs aOid pOid db).records
        = db.records.map (fun r => (lfs.map lfTriple).foldl (repTriple aOid pOid) r))
    ∧ ((directPhase lfs aOid pOid db).records.map Record.oid = db.records.map Record.oid)
    ∧ ((directPhase lfs aOid pOid db).m2mLinks = db.m2mLinks) := by
  unfold directPhase
  exact guardedRepoint_char aOid pOid lfTriple _
    (fun d f => directPhase_step_eq aOid pOid d f) lfs db hnd

theorem revFkPhase_step_eq (aOid pOid : Nat) :
    ∀ (db : DB) (d : RelDesc),
      (if d.accessor.isSome then repointAll db d.related_cls d.field_name aOid pOid else db)
      = if (rdTriple d).1 then repointAll db (rdTriple d).2.1 (rdTriple d).2.2 aOid pOid
        else db := by
  intro db d
  unfold rdTriple
  rfl

theorem revFkPhase_char (ds : List RelDesc) (aOid pOid : Nat) (db : DB)
    (hnd : (db.records.map Record.oid).Nodup) :
    ((revFkPhase ds aOid pOid db).records
        = db.records.map (fun r => (ds.map rdTriple).foldl (repTriple aOid pOid) r))
    ∧ ((revFkPhase ds aOid pOid db).records.map Record.oid = db.records.map Record.oid)
    ∧ ((revFkPhase ds aOid pOid db).m2mLinks = db.m2mLinks) := by
  unfold revFkPhase
  exact guardedRepoint_char aOid pOid rdTriple _
    (fun d desc => revFkPhase_step_eq aOid pOid d desc) ds db hnd

/-! ### Record-shape preservation -/

/-- `RecShape pOid dbA dbB`: every record of `dbB` descends from a record
of `dbA` with the same id and class, each field being either unchanged or
re-pointed to the primary. -/
def RecShape (pOid : Nat) (dbA dbB : DB) : Prop :=
  ∀ r' ∈ dbB.records, ∃ r ∈ dbA.records, r.oid = r'.oid ∧ r.cls = r'.cls ∧
    ∀ f0, getAttr r' f0 = getAttr r f0 ∨ getAttr r' f0 = Val.vref pOid

theorem recShape_refl (pOid : Nat) (db : DB) : RecShape pOid db db :=
  fun r' hr' => ⟨r', hr', rfl, rfl, fun _ => Or.inl rfl⟩

theorem recShape_trans {pOid : Nat} {a b c : DB}
    (h1 : RecShape pOid a b) (h2 : RecShape pOid b c) : RecShape pOid a c := by
  intro r' hr'
  obtain ⟨r1, hr1, ho1, hc1, hv1⟩ := h2 r' hr'
  obtain ⟨r0, hr0, ho0, hc0, hv0⟩ := h1 r1 hr1
  refine ⟨r0, hr0, ho0.trans ho1, hc0.trans hc1, fun f0 => ?_⟩
  rcases hv1 f0 with h | h
  · rw [h]
    rcases hv0 f0 with h' | h'
    · left; exact h'
    · right; exact h'
  · right; exact h

theorem foldl_recShape {α : Type} (f : DB → α → DB) (pOid : Nat)
    (h : ∀ db x, RecShape pOid db (f db x)) :
    ∀ (l : List α) (db : DB), RecShape pOid db (l.foldl f db) := by
  intro l
  induction l with
  | nil => intro db; exact recShape_refl pOid db
  | cons x l ih =>
    intro db
    rw [List.foldl_cons]
    exact recShape_trans (h db x) (ih (f db x))

theorem saveRecord_setAttr_shape (db : DB) (o : Record) (fld : String) (pOid : Nat)
    (ho : o ∈ db.records) :
    RecShape pOid db (saveRecord db (setAttr o fld (Val.vref pOid))) := by
  intro r' hr'
  rw [saveRecord_records] at hr'
  obtain ⟨r0, hr0, heq⟩ := List.mem_map.1 hr'
  by_cases h : r0.oid = (setAttr o fld (Val.vref pOid)).oid
  · rw [if_pos h] at heq
    subst heq
    refine ⟨o, ho, by rw [setAttr_oid], by rw [setAttr_cls], fun f0 => ?_⟩
    by_cases hf : f0 = fld
    · right; rw [hf]; exact getAttr_setAttr_same o fld _
    · left; exact getAttr_setAttr_ne o fld f0 _ hf
  · rw [if_neg h] at heq
    subst heq
    exact ⟨r0, hr0, rfl, rfl, fun f0 => Or.inl rfl⟩

theorem deleteRecord_shape (pOid : Nat) (db : DB) (x : Nat) :
    RecShape pOid db (deleteRecord db x) := by
  intro r' hr'
  exact ⟨r', (mem_deleteRecord hr').1, rfl, rfl, fun _ => Or.inl rfl⟩

/-! ### One-to-one phase lemmas -/

theorem o2oStep_links (db : DB) (d : RelDesc) (aOid pOid : Nat) :
    (o2oStep db d aOid pOid).m2mLinks = db.m2mLinks := by
  unfold o2oStep
  split
  · split
    · split
      · rfl
      · exact saveRecord_links _ _
    · rfl
  · rfl

theorem o2oStep_oidmap (db : DB) (d : RelDesc) (aOid pOid : Nat) :
    (o2oStep db d aOid pOid).records.map Record.oid = db.records.map Record.oid := by
  unfold o2oStep
  split
  · split
    · split
      · rfl
      · exact saveRecord_oidmap _ _
    · rfl
  · rfl

theorem o2oStep_shape (db : DB) (d : RelDesc) (aOid pOid : Nat) :
    RecShape pOid db (o2oStep db d aOid pOid) := by
  unfold o2oStep
  split
  · split
    · rename_i rel heq
      split
      · exact recShape_refl pOid db
      · exact saveRecord_setAttr_shape db rel d.field_name pOid
          (List.mem_of_find?_eq_some heq)
    · exact recShape_refl pOid db
  · exact recShape_refl pOid db

theorem o2oPhase_links (ds : List RelDesc) (aOid pOid : Nat) (db : DB) :
    (o2oPhase ds aOid pOid db).m2mLinks = db.m2mLinks := by
  unfold o2oPhase
  exact foldl_links_eq _ (fun d desc => o2oStep_links d desc aOid pOid) ds db

theorem o2oPhase_oidmap (ds : List RelDesc) (aOid pOid : Nat) (db : DB) :
    (o2oPhase ds aOid pOid db).records.map Record.oid = db.records.map Record.oid := by
  unfold o2oPhase
  exact foldl_oidmap_eq _ (fun d desc => o2oStep_oidmap d desc aOid pOid) ds db

theorem o2oPhase_shape (ds : List RelDesc) (aOid pOid : Nat) (db : DB) :
    RecShape pOid db (o2oPhase ds aOid pOid db) := by
  unfold o2oPhase
  exact foldl_recShape _ pOid (fun d desc => o2oStep_shape d desc aOid pOid) ds db

/-! ### Many-to-many phase lemmas -/

theorem addLink_records (db : DB) (f : String) (o m : Nat) :
    (addLink db f o m).records = db.records := by
  unfold addLink
  split <;> rfl

theorem removeLink_records (db : DB) (f : String) (o m : Nat) :
    (removeLink db f o m).records = db.records := rfl

theorem addLink_mem {db : DB} {f : String} {o m : Nat} {l : String × Nat × Nat}
    (h : l ∈ (addLink db f o m).m2mLinks) : l ∈ db.m2mLinks ∨ l = (f, o, m) := by
  unfold addLink at h
  split at h
  · exact Or.inl h
  · rcases List.mem_append.1 h with h | h
    · exact Or.inl h
    · right; simpa using h

theorem removeLink_mem {db : DB} {f : String} {o m : Nat} {l : String × Nat × Nat}
    (h : l ∈ (removeLink db f o m).m2mLinks) : l ∈ db.m2mLinks :=
  (List.mem_filter.1 h).1

theorem removeLink_not_mem (db : DB) (f : String) (o m : Nat) :
    (f, o, m) ∉ (removeLink db f o m).m2mLinks := by
  intro h
  have := (List.mem_filter.1 h).2
  simp at this

theorem linkExists_iff (db : DB) (f : String) (o m : Nat) :
    linkExists db f o m = true ↔ (f, o, m) ∈ db.m2mLinks := by
  unfold linkExists
  exact List.elem_iff

theorem m2m_owner_fold_transport (f : String) (aOid pOid : Nat) :
    ∀ (os : List Record) (db : DB) (l : String × Nat × Nat),
      l ∈ ((os.foldl (fun db' obj =>
          addLink (removeLink db' f obj.oid aOid) f obj.oid pOid) db).m2mLinks) →
      l ∈ db.m2mLinks ∨ l.2.2 = pOid := by
  intro os
  induction os with
  | nil => intro db l h; exact Or.inl h
  | cons o os ih =>
    intro db l h
    rw [List.foldl_cons] at h
    rcases ih _ l h with h1 | h1
    · rcases addLink_mem h1 with h2 | h2
      · exact Or.inl (removeLink_mem h2)
      · right; rw [h2]
    · exact Or.inr h1

theorem m2m_owner_fold_clears (f : String) (aOid pOid : Nat) (hap : aOid ≠ pOid) :
    ∀ (os : List Record) (db : DB) (o : Record), o ∈ os →
      (f, o.oid, aOid) ∉ ((os.foldl (fun db' obj =>
          addLink (removeLink db' f obj.oid aOid) f obj.oid pOid) db).m2mLinks) := by
  intro os
  induction os with
  | nil => intro db o ho; simp at ho
  | cons o' os ih =>
    intro db o ho hmem
    rw [List.foldl_cons] at hmem
    rcases List.mem_cons.1 ho with h | h
    · subst h
      have hout : (f, o.oid, aOid) ∉
          (addLink (removeLink db f o.oid aOid) f o.oid pOid).m2mLinks := by
        intro hx
        rcases addLink_mem hx with h2 | h2
        · exact removeLink_not_mem _ _ _ _ h2
        · exact hap (by simpa using h2)
      rcases m2m_owner_fold_transport f aOid pOid os _ _ hmem with h3 | h3
      · exact hout h3
      · exact hap (by simpa using h3)
    · exact ih _ o h hmem

theorem m2mStep_records (db : DB) (d : RelDesc) (aOid pOid : Nat) :
    (m2mStep db d aOid pOid).records = db.records := by
  unfold m2mStep
  split
  · exact foldl_records_eq _
      (fun db' obj => by rw [addLink_records, removeLink_records]) _ db
  · exact foldl_records_eq _
      (fun db' obj => by rw [addLink_records, removeLink_records]) _ db

theorem m2mStep_transport {db : DB} {d : RelDesc} {aOid pOid : Nat} {l : String × Nat × Nat}
    (h : l ∈ (m2mStep db d aOid pOid).m2mLinks) : l ∈ db.m2mLinks ∨ l.2.2 = pOid := by
  unfold m2mStep at h
  split at h
  · exact m2m_owner_fold_transport _ aOid pOid _ db l h
  · exact m2m_owner_fold_transport _ aOid pOid _ db l h

theorem m2mStep_clears (db : DB) (d : RelDesc) (aOid pOid : Nat) (r : Record)
    (hacc : d.accessor.isSome = true) (hr : r ∈ db.records) (hcls : r.cls = d.related_cls)
    (hlink : linkExists db d.field_name r.oid aOid = true) (hap : aOid ≠ pOid) :
    (d.field_name, r.oid, aOid) ∉ (m2mStep db d aOid pOid).m2mLinks := by
  unfold m2mStep
  cases hd : d.accessor with
  | none => rw [hd] at hacc; simp at hacc
  | some s =>
    simp only [hd]
    apply m2m_owner_fold_clears d.field_name aOid pOid hap _ db r
    exact List.mem_filter.2 ⟨hr, by simp [hcls, hlink]⟩

theorem m2mPhase_records (ds : List RelDesc) (aOid pOid : Nat) (db : DB) :
    (m2mPhase ds aOid pOid db).records = db.records := by
  unfold m2mPhase
  exact foldl_records_eq _ (fun d desc => m2mStep_records d desc aOid pOid) ds db

theorem m2mPhase_transport (ds : List RelDesc) (aOid pOid : Nat) :
    ∀ (db : DB) (l : String × Nat × Nat),
      l ∈ (m2mPhase ds aOid pOid db).m2mLinks → l ∈ db.m2mLinks ∨ l.2.2 = pOid := by
  induction ds with
  | nil => intro db l h; exact Or.inl h
  | cons d0 ds ih =>
    intro db l h
    unfold m2mPhase at h
    rw [List.foldl_cons] at h
    unfold m2mPhase at ih
    rcases ih _ l h with h1 | h1
    · rcases m2mStep_transport h1 with h2 | h2
      · exact Or.inl h2
      · exact Or.inr h2
    · exact Or.inr h1

theorem m2mPhase_clears (ds : List RelDesc) (aOid pOid : Nat) (hap : aOid ≠ pOid)
    (la : String) (lb : Nat) :
    ∀ (db : DB) (r : Record), (la, lb, aOid) ∈ db.m2mLinks → r ∈ db.records →
      r.oid = lb →
      (∃ d ∈ ds, d.accessor.isSome = true ∧ d.field_name = la ∧ d.related_cls = r.cls) →
      (la, lb, aOid) ∉ (m2mPhase ds aOid pOid db).m2mLinks := by
  induction ds with
  | nil =>
    intro db r _ _ _ hex
    rcases hex with ⟨d, hd, _⟩
    simp at hd
  | cons d0 ds ih =>
    intro db r hl hr hro hex hmem
    unfold m2mPhase at hmem
    rw [List.foldl_cons] at hmem
    rcases hex with ⟨d, hd, hacc, hfld, hcls⟩
    rcases List.mem_cons.1 hd with h | h
    · subst h
      have hout : (la, lb, aOid) ∉ (m2mStep db d aOid pOid).m2mLinks := by
        have hlk : linkExists db d.field_name r.oid aOid = true := by
          rw [linkExists_iff, hfld, hro]
          exact hl
        have := m2mStep_clears db d aOid pOid r hacc hr hcls.symm hlk hap
        rw [hfld, hro] at this
        exact this
      rcases m2mPhase_transport ds aOid pOid _ _ hmem with h2 | h2
      · exact hout h2
      · exact hap (by simpa using h2)
    · by_cases hin : (la, lb, aOid) ∈ (m2mStep db d0 aOid pOid).m2mLinks
      · exact ih (m2mStep db d0 aOid pOid) r hin
          (by rw [m2mStep_records]; exact hr) hro ⟨d, h, hacc, hfld, hcls⟩ hmem
      · rcases m2mPhase_transport ds aOid pOid _ _ hmem with h2 | h2
        · exact hin h2
        · exact hap (by simpa using h2)

theorem m2mPhase_shape (ds : List RelDesc) (aOid pOid : Nat) (db : DB) :
    RecShape pOid db (m2mPhase ds aOid pOid db) := by
  rw [RecShape, m2mPhase_records]
  exact fun r' hr' => ⟨r', hr', rfl, rfl, fun _ => Or.inl rfl⟩

/-! ### Combined evolution relation -/

/-- `Evolves pOid db db'`: `db'` is reachable from `db` through merge
phases: records descend id- and class-preservingly with writes only of
references to the primary, ids only disappear, and new many-to-many links
only point at the primary. -/
def Evolves (pOid : Nat) (db db' : DB) : Prop :=
  RecShape pOid db db'
  ∧ (db'.records.map Record.oid).Sublist (db.records.map Record.oid)
  ∧ (∀ l ∈ db'.m2mLinks, l ∈ db.m2mLinks ∨ l.2.2 = pOid)

theorem evolves_refl (pOid : Nat) (db : DB) : Evolves pOid db db :=
  ⟨recShape_refl pOid db, List.Sublist.refl _, fun _ hl => Or.inl hl⟩

theorem evolves_trans {pOid : Nat} {a b c : DB}
    (h1 : Evolves pOid a b) (h2 : Evolves pOid b c) : Evolves pOid a c := by
  refine ⟨recShape_trans h1.1 h2.1, h2.2.1.trans h1.2.1, fun l hl => ?_⟩
  rcases h2.2.2 l hl with h | h
  · exact h1.2.2 l h
  · exact Or.inr h

theorem sublist_of_oidmap_eq {dbA dbB : DB}
    (h : dbB.records.map Record.oid = dbA.records.map Record.oid) :
    (dbB.records.map Record.oid).Sublist (dbA.records.map Record.oid) := by
  rw [h]

theorem evolves_directPhase (lfs : List LocalField) (aOid pOid : Nat) (db : DB)
    (hnd : (db.records.map Record.oid).Nodup) :
    Evolves pOid db (directPhase lfs aOid pOid db) := by
  obtain ⟨h1, h2, h3⟩ := directPhase_char lfs aOid pOid db hnd
  refine ⟨?_, sublist_of_oidmap_eq h2, fun l hl => Or.inl (by rw [h3] at hl; exact hl)⟩
  intro r' hr'
  rw [h1] at hr'
  obtain ⟨r, hr, heq⟩ := List.mem_map.1 hr'
  subst heq
  exact ⟨r, hr, (foldl_repTriple_oid aOid pOid _ r).symm,
    (foldl_repTriple_cls aOid pOid _ r).symm,
    fun f0 => foldl_repTriple_shape aOid pOid _ r f0⟩

theorem evolves_revFkPhase (ds : List RelDesc) (aOid pOid : Nat) (db : DB)
    (hnd : (db.records.map Record.oid).Nodup) :
    Evolves pOid db (revFkPhase ds aOid pOid db) := by
  obtain ⟨h1, h2, h3⟩ := revFkPhase_char ds aOid pOid db hnd
  refine ⟨?_, sublist_of_oidmap_eq h2, fun l hl => Or.inl (by rw [h3] at hl; exact hl)⟩
  intro r' hr'
  rw [h1] at hr'
  obtain ⟨r, hr, heq⟩ := List.mem_map.1 hr'
  subst heq
  exact ⟨r, hr, (foldl_repTriple_oid aOid pOid _ r).symm,
    (foldl_repTriple_cls aOid pOid _ r).symm,
    fun f0 => foldl_repTriple_shape aOid pOid _ r f0⟩

theorem m2mPhase_oidmap (ds : List RelDesc) (aOid pOid : Nat) (db : DB) :
    (m2mPhase ds aOid pOid db).records.map Record.oid = db.records.map Record.oid := by
  rw [m2mPhase_records]

theorem evolves_m2mPhase (ds : List RelDesc) (aOid pOid : Nat) (db : DB) :
    Evolves pOid db (m2mPhase ds aOid pOid db) :=
  ⟨m2mPhase_shape ds aOid pOid db,
   sublist_of_oidmap_eq (m2mPhase_oidmap ds aOid pOid db),
   fun l hl => m2mPhase_transport ds aOid pOid db l hl⟩

theorem evolves_o2oPhase (ds : List RelDesc) (aOid pOid : Nat) (db : DB) :
    Evolves pOid db (o2oPhase ds aOid pOid db) :=
  ⟨o2oPhase_shape ds aOid pOid db,
   sublist_of_oidmap_eq (o2oPhase_oidmap ds aOid pOid db),
   fun l hl => Or.inl (by rw [o2oPhase_links] at hl; exact hl)⟩

theorem evolves_deleteRecord (pOid : Nat) (db : DB) (x : Nat) :
    Evolves pOid db (deleteRecord db x) :=
  ⟨deleteRecord_shape pOid db x, deleteRecord_oidmap_sublist db x,
   fun l hl => Or.inl (by rw [deleteRecord_links] at hl; exact hl)⟩

/-! ### Projections of one alias-loop iteration -/

theorem process_alias_eq (sc : Schema) (md ko : Bool) (st : DB × Record × List String)
    (a : Record) :
    process_alias sc md ko st a =
      ((if ko then
          revFkPhase (modelMeta sc a.cls).rev_fk_descs a.oid st.2.1.oid
            (o2oPhase (modelMeta sc a.cls).o2o_descs a.oid st.2.1.oid
              (m2mPhase (modelMeta sc a.cls).m2m_descs a.oid st.2.1.oid
                (if md then directPhase (modelMeta sc a.cls).local_fields a.oid st.2.1.oid st.1
                 else st.1)))
        else deleteRecord
          (revFkPhase (modelMeta sc a.cls).rev_fk_descs a.oid st.2.1.oid
            (o2oPhase (modelMeta sc a.cls).o2o_descs a.oid st.2.1.oid
              (m2mPhase (modelMeta sc a.cls).m2m_descs a.oid st.2.1.oid
                (if md then directPhase (modelMeta sc a.cls).local_fields a.oid st.2.1.oid st.1
                 else st.1)))) a.oid),
       backfill a st.2.2 st.2.1,
       st.2.2.filter (fun f => isBlank (getAttr a f))) := rfl

/-! ### Back-fill lemmas -/

theorem backfill_cons (a : Record) (f : String) (bl : List String) (q : Record) :
    backfill a (f :: bl) q
      = backfill a bl (if isBlank (getAttr a f) then q else setAttr q f (getAttr a f)) := rfl

theorem backfill_oid (a : Record) :
    ∀ (bl : List String) (q : Record), (backfill a bl q).oid = q.oid := by
  intro bl
  induction bl with
  | nil => intro q; rfl
  | cons f bl ih =>
    intro q
    rw [backfill_cons]
    by_cases h : isBlank (getAttr a f) = true
    · rw [if_pos h]; exact ih q
    · rw [if_neg h, ih, setAttr_oid]

theorem backfill_not_mem (a : Record) :
    ∀ (bl : List String) (q : Record) (f0 : String), f0 ∉ bl →
      getAttr (backfill a bl q) f0 = getAttr q f0 := by
  intro bl
  induction bl with
  | nil => intro q f0 _; rfl
  | cons f bl ih =>
    intro q f0 hmem
    have hne : f0 ≠ f := fun h => hmem (h ▸ List.mem_cons_self f bl)
    have hbl : f0 ∉ bl := fun h => hmem (List.mem_cons_of_mem f h)
    rw [backfill_cons]
    by_cases h : isBlank (getAttr a f) = true
    · rw [if_pos h]; exact ih q f0 hbl
    · rw [if_neg h, ih _ f0 hbl, getAttr_setAttr_ne _ _ _ _ hne]

theorem backfill_blankval (a : Record) :
    ∀ (bl : List String) (q : Record) (f0 : String), isBlank (getAttr a f0) = true →
      getAttr (backfill a bl q) f0 = getAttr q f0 := by
  intro bl
  induction bl with
  | nil => intro q f0 _; rfl
  | cons f bl ih =>
    intro q f0 hbk
    rw [backfill_cons]
    by_cases h : isBlank (getAttr a f) = true
    · rw [if_pos h]; exact ih q f0 hbk
    · have hne : f0 ≠ f := by
        intro he
        rw [he] at hbk
        exact h hbk
      rw [if_neg h, ih _ f0 hbk, getAttr_setAttr_ne _ _ _ _ hne]

theorem backfill_keeps (a : Record) :
    ∀ (bl : List String) (q : Record) (f0 : String), getAttr q f0 = getAttr a f0 →
      getAttr (backfill a bl q) f0 = getAttr a f0 := by
  intro bl
  induction bl with
  | nil => intro q f0 h; exact h
  | cons f bl ih =>
    intro q f0 h
    rw [backfill_cons]
    by_cases hb : isBlank (getAttr a f) = true
    · rw [if_pos hb]; exact ih q f0 h
    · rw [if_neg hb]
      apply ih
      by_cases hne : f0 = f
      · rw [hne, getAttr_setAttr_same]
      · rw [getAttr_setAttr_ne _ _ _ _ hne]
        exact h

theorem backfill_sets (a : Record) :
    ∀ (bl : List String) (q : Record) (f0 : String), f0 ∈ bl →
      isBlank (getAttr a f0) = false →
      getAttr (backfill a bl q) f0 = getAttr a f0 := by
  intro bl
  induction bl with
  | nil => intro q f0 h; simp at h
  | cons f bl ih =>
    intro q f0 hmem hnb
    rw [backfill_cons]
    rcases List.mem_cons.1 hmem with h | h
    · subst h
      rw [if_neg (by simp [hnb])]
      exact backfill_keeps a bl _ f0 (getAttr_setAttr_same q f0 _)
    · by_cases hb : isBlank (getAttr a f) = true
      · rw [if_pos hb]; exact ih q f0 h hnb
      · rw [if_neg hb]; exact ih _ f0 h hnb

theorem backfill_shape (a : Record) :
    ∀ (bl : List String) (q : Record) (f0 : String),
      getAttr (backfill a bl q) f0 = getAttr q f0 ∨
        getAttr (backfill a bl q) f0 = getAttr a f0 := by
  intro bl q f0
  by_cases hmem : f0 ∈ bl
  · cases hb : isBlank (getAttr a f0) with
    | true => left; exact backfill_blankval a bl q f0 hb
    | false => right; exact backfill_sets a bl q f0 hmem hb
  · left; exact backfill_not_mem a bl q f0 hmem

/-! ### Clearing lemmas for one alias iteration -/

/-- Coverage hypothesis for record references: every stored reference to
an alias is reachable through a reverse-foreign-key descriptor (with a
reverse accessor) of that alias's class. -/
def CoversFk (sc : Schema) (db0 : DB) (as : List Record) : Prop :=
  ∀ r ∈ db0.records, ∀ fv ∈ r.attrs, ∀ a ∈ as, fv.2 = Val.vref a.oid →
    ∃ d ∈ (modelMeta sc a.cls).rev_fk_descs,
      d.accessor.isSome = true ∧ d.related_cls = r.cls ∧ d.field_name = fv.1

/-- Coverage hypothesis for many-to-many links: every link whose member
is an alias and whose owning record exists is reachable through a
many-to-many descriptor (with a reverse accessor) of that alias's class. -/
def CoversM2m (sc : Schema) (db0 : DB) (as : List Record) : Prop :=
  ∀ l ∈ db0.m2mLinks, ∀ a ∈ as, l.2.2 = a.oid → ∀ r ∈ db0.records, r.oid = l.2.1 →
    ∃ d ∈ (modelMeta sc a.cls).m2m_descs,
      d.accessor.isSome = true ∧ d.field_name = l.1 ∧ d.related_cls = r.cls

theorem covFk_getAttr {sc : Schema} {db0 : DB} {as : List Record}
    (hcov : CoversFk sc db0 as) {r : Record} (hr : r ∈ db0.records) {f0 : String}
    {a : Record} (ha : a ∈ as) (hval : getAttr r f0 = Val.vref a.oid) :
    ∃ d ∈ (modelMeta sc a.cls).rev_fk_descs,
      d.accessor.isSome = true ∧ d.related_cls = r.cls ∧ d.field_name = f0 := by
  rcases getAttr_cases r f0 with h | h
  · rw [hval] at h; exact absurd h (by simp)
  · rw [hval] at h
    exact hcov r hr (f0, Val.vref a.oid) h a ha rfl

/-- After the reverse-foreign-key phase of alias `a`, no stored record
references `a` any more (given coverage and a store that evolved from the
covered original). -/
theorem revFk_clears (sc : Schema) (db0 : DB) (p a : Record) (as : List Record)
    (ha : a ∈ as) (hap : ∀ b ∈ as, b.oid ≠ p.oid) (hcov : CoversFk sc db0 as)
    (dbO : DB) (hE : Evolves p.oid db0 dbO)
    (hndO : (dbO.records.map Record.oid).Nodup) :
    ∀ r' ∈ (revFkPhase (modelMeta sc a.cls).rev_fk_descs a.oid p.oid dbO).records,
      ∀ f0 : String, getAttr r' f0 ≠ Val.vref a.oid := by
  intro r' hr' f0 hval
  obtain ⟨hrec, _, _⟩ := revFkPhase_char (modelMeta sc a.cls).rev_fk_descs a.oid p.oid dbO hndO
  rw [hrec] at hr'
  obtain ⟨r3, hr3, heq⟩ := List.mem_map.1 hr'
  subst heq
  have hap' : a.oid ≠ p.oid := hap a ha
  have hval3 : getAttr r3 f0 = Val.vref a.oid := by
    rcases foldl_repTriple_shape a.oid p.oid _ r3 f0 with h | h
    · rw [← h]; exact hval
    · rw [h] at hval
      exact absurd (by injection hval with hh; exact hh.symm) hap'
  obtain ⟨r0, hr0, _, hcls, hv⟩ := hE.1 r3 hr3
  have hval0 : getAttr r0 f0 = Val.vref a.oid := by
    rcases hv f0 with h | h
    · rw [← h]; exact hval3
    · rw [h] at hval3
      exact absurd (by injection hval3 with hh; exact hh.symm) hap'
  obtain ⟨d, hd, hacc, hdcls, hdf⟩ := covFk_getAttr hcov hr0 ha hval0
  have := foldl_repTriple_clears a.oid p.oid hap' ((modelMeta sc a.cls).rev_fk_descs.map rdTriple)
    r3 f0 ⟨rdTriple d, List.mem_map.2 ⟨d, hd, rfl⟩, hacc, by rw [rdTriple]; dsimp; rw [hdcls, hcls], by rw [rdTriple]; dsimp; exact hdf⟩
  exact this hval

/-- After the many-to-many phase of alias `a`, no link with an existing
owner record has `a` as member (given coverage and evolution). -/
theorem m2m_clears_full (sc : Schema) (db0 : DB) (p a : Record) (as : List Record)
    (ha : a ∈ as) (hap : ∀ b ∈ as, b.oid ≠ p.oid) (hcov : CoversM2m sc db0 as)
    (dbD : DB) (hE : Evolves p.oid db0 dbD) :
    ∀ l ∈ (m2mPhase (modelMeta sc a.cls).m2m_descs a.oid p.oid dbD).m2mLinks,
      l.2.2 = a.oid →
      ∀ r ∈ (m2mPhase (modelMeta sc a.cls).m2m_descs a.oid p.oid dbD).records,
        r.oid ≠ l.2.1 := by
  intro l hl hmem r hr hro
  have hap' : a.oid ≠ p.oid := hap a ha
  rw [m2mPhase_records] at hr
  have hlD : l ∈ dbD.m2mLinks := by
    rcases m2mPhase_transport _ a.oid p.oid dbD l hl with h | h
    · exact h
    · rw [hmem] at h; exact absurd h hap'
  have hl0 : l ∈ db0.m2mLinks := by
    rcases hE.2.2 l hlD with h | h
    · exact h
    · rw [hmem] at h; exact absurd h hap'
  obtain ⟨r0, hr0, hoid0, hcls0, _⟩ := hE.1 r hr
  obtain ⟨d, hd, hacc, hdf, hdcls⟩ := hcov l hl0 a ha hmem r0 hr0 (by rw [hoid0, hro])
  have hleta : (l.1, l.2.1, a.oid) = l := by
    rw [← hmem]
  have hclear := m2mPhase_clears (modelMeta sc a.cls).m2m_descs a.oid p.oid hap'
    l.1 l.2.1 dbD r (by rw [hleta]; exact hlD) hr hro
    ⟨d, hd, hacc, hdf, by rw [hdcls, hcls0]⟩
  rw [hleta] at hclear
  exact hclear hl

/-! ### The merge invariant over the alias loop -/

/-- Invariant carried through `for alias_object in alias_objects` with
`migrate_data` enabled: `pre` are the already-processed aliases. -/
structure MergeInv (sc : Schema) (db0 : DB) (p : Record) (ko : Bool)
    (pre : List Record) (st : DB × Record × List String) : Prop where
  noRef : ∀ r ∈ st.1.records, ∀ f0 : String, ∀ a ∈ pre, getAttr r f0 ≠ Val.vref a.oid
  noLink : ∀ l ∈ st.1.m2mLinks, ∀ a ∈ pre, l.2.2 = a.oid →
    ∀ r ∈ st.1.records, r.oid ≠ l.2.1
  evolves : Evolves p.oid db0 st.1
  kept : ko = true → st.1.records.map Record.oid = db0.records.map Record.oid
  deleted : ko = false → ∀ a ∈ pre, a.oid ∉ st.1.records.map Record.oid
  pshape : ∀ f0 : String, getAttr st.2.1 f0 = getAttr p f0 ∨
    ∃ a ∈ pre, getAttr st.2.1 f0 = getAttr a f0
  poid : st.2.1.oid = p.oid

theorem merge_step (sc : Schema) (db0 : DB) (p : Record) (ko : Bool) (as : List Record)
    (hnd0 : (db0.records.map Record.oid).Nodup)
    (hap : ∀ b ∈ as, b.oid ≠ p.oid)
    (hcov_fk : CoversFk sc db0 as) (hcov_m2m : CoversM2m sc db0 as)
    (pre : List Record) (a : Record) (ha : a ∈ as) (hpre : ∀ x ∈ pre, x ∈ as)
    (dbK : DB) (po : Record) (bl : List String)
    (hinv : MergeInv sc db0 p ko pre (dbK, po, bl)) :
    MergeInv sc db0 p ko (pre ++ [a]) (process_alias sc true ko (dbK, po, bl) a) := by
  have hpoid : po.oid = p.oid := hinv.poid
  have hndK : (dbK.records.map Record.oid).Nodup := hinv.evolves.2.1.nodup hnd0
  rw [process_alias_eq]
  dsimp only
  rw [if_pos rfl, hpoid]
  set m := modelMeta sc a.cls with hm
  set dbD := directPhase m.local_fields a.oid p.oid dbK with hdbD
  set dbM := m2mPhase m.m2m_descs a.oid p.oid dbD with hdbM
  set dbO := o2oPhase m.o2o_descs a.oid p.oid dbM with hdbO
  set dbR := revFkPhase m.rev_fk_descs a.oid p.oid dbO with hdbR
  have hcharD := directPhase_char m.local_fields a.oid p.oid dbK hndK
  have hndD : (dbD.records.map Record.oid).Nodup := by rw [← hdbD] at hcharD; rw [hcharD.2.1]; exact hndK
  have hndM : (dbM.records.map Record.oid).Nodup := by
    rw [hdbM, m2mPhase_oidmap]; exact hndD
  have hndO : (dbO.records.map Record.oid).Nodup := by
    rw [hdbO, o2oPhase_oidmap]; exact hndM
  have hcharR := revFkPhase_char m.rev_fk_descs a.oid p.oid dbO hndO
  have hndR : (dbR.records.map Record.oid).Nodup := by rw [← hdbR] at hcharR; rw [hcharR.2.1]; exact hndO
  have eD : Evolves p.oid dbK dbD := hdbD ▸ evolves_directPhase m.local_fields a.oid p.oid dbK hndK
  have eM : Evolves p.oid dbD dbM := hdbM ▸ evolves_m2mPhase m.m2m_descs a.oid p.oid dbD
  have eO : Evolves p.oid dbM dbO := hdbO ▸ evolves_o2oPhase m.o2o_descs a.oid p.oid dbM
  have eR : Evolves p.oid dbO dbR := hdbR ▸ evolves_revFkPhase m.rev_fk_descs a.oid p.oid dbO hndO
  have eKO : Evolves p.oid dbK dbO := evolves_trans eD (evolves_trans eM eO)
  have eKR : Evolves p.oid dbK dbR := evolves_trans eKO eR
  have e0O : Evolves p.oid db0 dbO := evolves_trans hinv.evolves eKO
  have e0D : Evolves p.oid db0 dbD := evolves_trans hinv.evolves eD
  have e0R : Evolves p.oid db0 dbR := evolves_trans hinv.evolves eKR
  -- clearing facts at dbR
  have hclearsA : ∀ r' ∈ dbR.records, ∀ f0 : String, getAttr r' f0 ≠ Val.vref a.oid := by
    rw [hdbR, hm]
    exact revFk_clears sc db0 p a as ha hap hcov_fk dbO e0O hndO
  have hlinksR : dbR.m2mLinks = dbM.m2mLinks := by
    have h1 : dbR.m2mLinks = dbO.m2mLinks := hcharR.2.2
    rw [h1, hdbO, o2oPhase_links]
  have hoidRM : dbR.records.map Record.oid = dbM.records.map Record.oid := by
    rw [hcharR.2.1, hdbO, o2oPhase_oidmap]
  have hclearsB : ∀ l ∈ dbR.m2mLinks, l.2.2 = a.oid → ∀ r ∈ dbR.records, r.oid ≠ l.2.1 := by
    intro l hl hmem r hr hro
    have hlM : l ∈ dbM.m2mLinks := by rw [← hlinksR]; exact hl
    have hroM : r.oid ∈ dbM.records.map Record.oid := by
      rw [← hoidRM]; exact List.mem_map.2 ⟨r, hr, rfl⟩
    obtain ⟨rM, hrM, hrMoid⟩ := List.mem_map.1 hroM
    have := m2m_clears_full sc db0 p a as ha hap hcov_m2m dbD e0D l
      (by rw [hdbM] at hlM; exact hlM) hmem rM (by rw [hdbM] at hrM; exact hrM)
    rw [hrMoid] at this
    exact this hro
  -- the post-delete store
  have hsub5 : ∀ r ∈ (if ko then dbR else deleteRecord dbR a.oid).records, r ∈ dbR.records := by
    intro r hr
    cases ko with
    | true => exact hr
    | false => exact (mem_deleteRecord hr).1
  have hlinks5 : (if ko then dbR else deleteRecord dbR a.oid).m2mLinks = dbR.m2mLinks := by
    cases ko with
    | true => rfl
    | false => exact deleteRecord_links dbR a.oid
  have hoid5 : ((if ko then dbR else deleteRecord dbR a.oid).records.map Record.oid).Sublist
      (dbR.records.map Record.oid) := by
    cases ko with
    | true => exact List.Sublist.refl _
    | false => exact deleteRecord_oidmap_sublist dbR a.oid
  have eDel : Evolves p.oid dbR (if ko then dbR else deleteRecord dbR a.oid) := by
    cases ko with
    | true => exact evolves_refl p.oid dbR
    | false => exact evolves_deleteRecord p.oid dbR a.oid
  have eK5 : Evolves p.oid dbK (if ko then dbR else deleteRecord dbR a.oid) :=
    evolves_trans eKR eDel
  have e05 : Evolves p.oid db0 (if ko then dbR else deleteRecord dbR a.oid) :=
    evolves_trans hinv.evolves eK5
  refine ⟨?_, ?_, e05, ?_, ?_, ?_, ?_⟩
  · -- noRef for pre ++ [a]
    intro r hr f0 b hb hval
    rcases List.mem_append.1 hb with hbpre | hba
    · obtain ⟨rK, hrK, _, _, hv⟩ := eK5.1 r hr
      rcases hv f0 with h | h
      · rw [h] at hval
        exact hinv.noRef rK hrK f0 b hbpre hval
      · rw [h] at hval
        exact hap b (hpre b hbpre) (by injection hval with hh; exact hh.symm)
    · have hba' : b = a := by simpa using hba
      subst hba'
      exact hclearsA r (hsub5 r hr) f0 hval
  · -- noLink for pre ++ [a]
    intro l hl b hb hmem r hr hro
    rw [hlinks5] at hl
    rcases List.mem_append.1 hb with hbpre | hba
    · -- transport back to dbK
      have hlK : l ∈ dbK.m2mLinks := by
        rcases eKR.2.2 l hl with h | h
        · exact h
        · rw [hmem] at h
          exact absurd h (hap b (hpre b hbpre))
      have hroK : r.oid ∈ dbK.records.map Record.oid :=
        eK5.2.1.subset (List.mem_map.2 ⟨r, hr, rfl⟩)
      obtain ⟨rK, hrK, hrKoid⟩ := List.mem_map.1 hroK
      exact hinv.noLink l hlK b hbpre hmem rK hrK (by rw [hrKoid, hro])
    · have hba' : b = a := by simpa using hba
      subst hba'
      exact hclearsB l hl hmem r (hsub5 r hr) hro
  · -- kept
    intro hko
    cases ko with
    | false => exact absurd hko (by simp)
    | true =>
      show dbR.records.map Record.oid = db0.records.map Record.oid
      rw [hdbR, hcharR.2.1, hdbO, o2oPhase_oidmap, hdbM, m2mPhase_oidmap, hdbD, hcharD.2.1]
      exact hinv.kept rfl
  · -- deleted
    intro hko b hb
    cases ko with
    | true => exact absurd hko (by simp)
    | false =>
      show b.oid ∉ (deleteRecord dbR a.oid).records.map Record.oid
      rcases List.mem_append.1 hb with hbpre | hba
      · intro hmem
        have : b.oid ∈ dbR.records.map Record.oid :=
          (deleteRecord_oidmap_sublist dbR a.oid).subset hmem
        have hKmem : b.oid ∈ dbK.records.map Record.oid := eKR.2.1.subset this
        exact hinv.deleted rfl b hbpre hKmem
      · have hba' : b = a := by simpa using hba
        subst hba'
        intro hmem
        rw [deleteRecord_records] at hmem
        obtain ⟨r, hrmem, hroid⟩ := List.mem_map.1 hmem
        have := (List.mem_filter.1 hrmem).2
        simp only [decide_eq_true_eq] at this
        exact this hroid
  · -- pshape
    intro f0
    rcases backfill_shape a bl po f0 with h | h
    · rcases hinv.pshape f0 with h2 | h2
      · left; rw [h]; exact h2
      · obtain ⟨b, hb, hb2⟩ := h2
        right; exact ⟨b, List.mem_append.2 (Or.inl hb), by rw [h]; exact hb2⟩
    · right
      exact ⟨a, List.mem_append.2 (Or.inr (by simp)), h⟩
  · -- poid
    rw [backfill_oid, hpoid]

theorem merge_fold (sc : Schema) (db0 : DB) (p : Record) (ko : Bool) (as : List Record)
    (hnd0 : (db0.records.map Record.oid).Nodup)
    (hap : ∀ b ∈ as, b.oid ≠ p.oid)
    (hcov_fk : CoversFk sc db0 as) (hcov_m2m : CoversM2m sc db0 as) :
    ∀ (suf pre : List Record) (st : DB × Record × List String),
      (∀ x ∈ pre, x ∈ as) → (∀ x ∈ suf, x ∈ as) →
      MergeInv sc db0 p ko pre st →
      MergeInv sc db0 p ko (pre ++ suf) (suf.foldl (process_alias sc true ko) st) := by
  intro suf
  induction suf with
  | nil =>
    intro pre st _ _ hinv
    rw [List.append_nil]
    exact hinv
  | cons a suf ih =>
    intro pre st hpre hsuf hinv
    obtain ⟨dbK, po, bl⟩ := st
    rw [List.foldl_cons]
    have hstep := merge_step sc db0 p ko as hnd0 hap hcov_fk hcov_m2m pre a
      (hsuf a (List.mem_cons_self a suf)) hpre dbK po bl hinv
    have hpre' : ∀ x ∈ pre ++ [a], x ∈ as := by
      intro x hx
      rcases List.mem_append.1 hx with h | h
      · exact hpre x h
      · have hxa : x = a := by simpa using h
        rw [hxa]
        exact hsuf a (List.mem_cons_self a suf)
    have hsuf' : ∀ x ∈ suf, x ∈ as := fun x hx => hsuf x (List.mem_cons_of_mem a hx)
    have := ih (pre ++ [a]) (process_alias sc true ko (dbK, po, bl) a) hpre' hsuf' hstep
    rw [List.append_assoc, List.singleton_append] at this
    exact this

theorem mergeInv_init (sc : Schema) (db0 : DB) (p : Record) (ko : Bool) (bl0 : List String) :
    MergeInv sc db0 p ko [] (db0, p, bl0) := by
  refine ⟨?_, ?_, evolves_refl p.oid db0, fun _ => rfl, ?_, fun f0 => Or.inl rfl, rfl⟩
  · intro r _ f0 a ha
    simp at ha
  · intro l _ a ha
    simp at ha
  · intro _ a ha
    simp at ha

/-- Master lemma for a merge with `migrate_data` enabled: the call
succeeds, no surviving record or live-ownered link references any alias,
alias rows are removed exactly when `keep_old` is unset, and every
surviving non-primary row differs from its original only by fields
re-pointed to the primary. -/
theorem merge_master (sc : Schema) (db0 : DB) (p : Record) (as : List Record) (ko : Bool)
    (hval1 : issubclass sc p.cls "Model" = true)
    (hval2 : ∀ a ∈ as, issubclass sc a.cls p.cls = true)
    (hnd0 : (db0.records.map Record.oid).Nodup)
    (hap : ∀ b ∈ as, b.oid ≠ p.oid)
    (hcov_fk : CoversFk sc db0 as) (hcov_m2m : CoversM2m sc db0 as)
    (hmem_alias : ∀ a ∈ as, ∀ fv ∈ a.attrs, ∀ b ∈ as, fv.2 ≠ Val.vref b.oid)
    (hmem_p : ∀ fv ∈ p.attrs, ∀ b ∈ as, fv.2 ≠ Val.vref b.oid) :
    (isOkResult (merge_model_objects sc db0 p as true ko).1 = true)
    ∧ (∀ r ∈ (merge_model_objects sc db0 p as true ko).2.records, ∀ f0 : String,
        ∀ a ∈ as, getAttr r f0 ≠ Val.vref a.oid)
    ∧ (∀ l ∈ (merge_model_objects sc db0 p as true ko).2.m2mLinks, ∀ a ∈ as,
        l.2.2 = a.oid →
        ∀ r ∈ (merge_model_objects sc db0 p as true ko).2.records, r.oid ≠ l.2.1)
    ∧ (ko = false → ∀ a ∈ as,
        a.oid ∉ (merge_model_objects sc db0 p as true ko).2.records.map Record.oid)
    ∧ (ko = true → (merge_model_objects sc db0 p as true ko).2.records.map Record.oid
        = db0.records.map Record.oid)
    ∧ (∀ r0 ∈ db0.records, r0.oid ≠ p.oid →
        ∀ r' ∈ (merge_model_objects sc db0 p as true ko).2.records, r'.oid = r0.oid →
        ∀ f0 : String, getAttr r' f0 = getAttr r0 f0 ∨ getAttr r' f0 = Val.vref p.oid) := by
  have hany : as.any (fun a => !issubclass sc a.cls p.cls) = false := by
    rw [List.any_eq_false]
    intro a ha
    rw [hval2 a ha]
    simp
  have hmerge : merge_model_objects sc db0 p as true ko =
      (Except.ok (as.foldl (process_alias sc true ko)
        (db0, p, ((modelMeta sc p.cls).local_fields.filter
          (fun f => isBlank (getAttr p f.attname))).map LocalField.attname)).2.1,
       saveRecord
        (as.foldl (process_alias sc true ko)
          (db0, p, ((modelMeta sc p.cls).local_fields.filter
            (fun f => isBlank (getAttr p f.attname))).map LocalField.attname)).1
        (as.foldl (process_alias sc true ko)
          (db0, p, ((modelMeta sc p.cls).local_fields.filter
            (fun f => isBlank (getAttr p f.attname))).map LocalField.attname)).2.1) := by
    unfold merge_model_objects
    rw [if_neg (not_not_intro hval1)]
    rw [if_neg (by rw [hany]; exact Bool.false_ne_true)]
  have hinvF := merge_fold sc db0 p ko as hnd0 hap hcov_fk hcov_m2m as []
    (db0, p, ((modelMeta sc p.cls).local_fields.filter
      (fun f => isBlank (getAttr p f.attname))).map LocalField.attname)
    (by intro x hx; simp at hx) (fun x hx => hx)
    (mergeInv_init sc db0 p ko _)
  rw [List.nil_append] at hinvF
  set stF := as.foldl (process_alias sc true ko)
    (db0, p, ((modelMeta sc p.cls).local_fields.filter
      (fun f => isBlank (getAttr p f.attname))).map LocalField.attname) with hstF
  have hpfnoref : ∀ f0 : String, ∀ b ∈ as, getAttr stF.2.1 f0 ≠ Val.vref b.oid := by
    intro f0 b hb hval
    rcases hinvF.pshape f0 with h | h
    · rw [h] at hval
      rcases getAttr_cases p f0 with h2 | h2
      · rw [hval] at h2; exact absurd h2 (by simp)
      · rw [hval] at h2
        exact hmem_p (f0, Val.vref b.oid) h2 b hb rfl
    · obtain ⟨aa, haa, h⟩ := h
      rw [h] at hval
      rcases getAttr_cases aa f0 with h2 | h2
      · rw [hval] at h2; exact absurd h2 (by simp)
      · rw [hval] at h2
        exact hmem_alias aa haa (f0, Val.vref b.oid) h2 b hb rfl
  rw [hmerge]
  refine ⟨rfl, ?_, ?_, ?_, ?_, ?_⟩
  · -- no record references an alias
    intro r hr f0 a ha hval
    rw [saveRecord_records] at hr
    obtain ⟨r0, hr0, heq⟩ := List.mem_map.1 hr
    by_cases h : r0.oid = stF.2.1.oid
    · rw [if_pos h] at heq
      subst heq
      exact hpfnoref f0 a ha hval
    · rw [if_neg h] at heq
      subst heq
      exact hinvF.noRef r0 hr0 f0 a ha hval
  · -- no live-ownered link has an alias member
    intro l hl a ha hmem r hr hro
    rw [saveRecord_links] at hl
    rw [saveRecord_records] at hr
    obtain ⟨r0, hr0, heq⟩ := List.mem_map.1 hr
    by_cases h : r0.oid = stF.2.1.oid
    · rw [if_pos h] at heq
      subst heq
      exact hinvF.noLink l hl a ha hmem r0 hr0 (h.trans hro)
    · rw [if_neg h] at heq
      subst heq
      exact hinvF.noLink l hl a ha hmem r0 hr0 hro
  · -- aliases deleted when keep_old is unset
    intro hko a ha
    rw [saveRecord_oidmap]
    exact hinvF.deleted hko a ha
  · -- alias rows kept when keep_old is set
    intro hko
    rw [saveRecord_oidmap]
    exact hinvF.kept hko
  · -- shape of surviving non-primary rows
    intro r0 hr0 hne r' hr' hoid f0
    rw [saveRecord_records] at hr'
    obtain ⟨r1, hr1, heq⟩ := List.mem_map.1 hr'
    by_cases h : r1.oid = stF.2.1.oid
    · rw [if_pos h] at heq
      subst heq
      rw [hinvF.poid] at hoid
      exact absurd hoid.symm hne
    · rw [if_neg h] at heq
      subst heq
      obtain ⟨r2, hr2, ho2, _, hv⟩ := hinvF.evolves.1 r1 hr1
      have hr2r0 : r2 = r0 := oid_inj hnd0 hr2 hr0 (by rw [ho2, hoid])
      rw [← hr2r0]
      exact hv f0

/-! ### Generic fold-preservation helpers -/

theorem foldl_pres_prop {α β : Type} (f : β → α → β) (P : β → Prop)
    (h : ∀ st x, P st → P (f st x)) :
    ∀ (l : List α) (st : β), P st → P (l.foldl f st) := by
  intro l
  induction l with
  | nil => intro st hP; exact hP
  | cons x l ih =>
    intro st hP
    rw [List.foldl_cons]
    exact ih (f st x) (h st x hP)

theorem foldl_pres_mem {α β : Type} (f : β → α → β) (P : β → Prop) :
    ∀ (l : List α), (∀ st x, x ∈ l → P st → P (f st x)) →
      ∀ st : β, P st → P (l.foldl f st) := by
  intro l
  induction l with
  | nil => intro _ st hP; exact hP
  | cons x l ih =>
    intro h st hP
    rw [List.foldl_cons]
    exact ih (fun st y hy hP' => h st y (List.mem_cons_of_mem x hy) hP') (f st x)
      (h st x (List.mem_cons_self x l) hP)

theorem process_alias_snd (sc : Schema) (md md' ko ko' : Bool)
    (st st' : DB × Record × List String) (a : Record) (h : st.2 = st'.2) :
    (process_alias sc md ko st a).2 = (process_alias sc md' ko' st' a).2 := by
  rw [process_alias_eq, process_alias_eq]
  dsimp only
  rw [congrArg Prod.fst h, congrArg Prod.snd h]

theorem foldl_process_snd (sc : Schema) (ko : Bool) :
    ∀ (as : List Record) (st st' : DB × Record × List String), st.2 = st'.2 →
      (as.foldl (process_alias sc true ko) st).2
        = (as.foldl (process_alias sc false ko) st').2 := by
  intro as
  induction as with
  | nil => intro st st' h; exact h
  | cons a as ih =>
    intro st st' h
    rw [List.foldl_cons, List.foldl_cons]
    exact ih _ _ (process_alias_snd sc true false ko ko st st' a h)

/-! ### The claims -/

/-- C2: if the primary is not a Model instance, or some alias is not the
same (sub)class as the primary, the merge raises one of the two type
errors and the store is completely unchanged (validation precedes any
mutation). -/
theorem C2_validation_before_mutation (sc : Schema) (db : DB) (p : Record)
    (as : List Record) (md ko : Bool)
    (h : issubclass sc p.cls "Model" = false ∨
      ∃ a ∈ as, issubclass sc a.cls p.cls = false) :
    ((merge_model_objects sc db p as md ko).1
        = Except.error "Only django.db.models.Model subclasses can be merged"
      ∨ (merge_model_objects sc db p as md ko).1
        = Except.error "Only models of same class can be merged")
    ∧ (merge_model_objects sc db p as md ko).2 = db := by
  unfold merge_model_objects
  by_cases h1 : issubclass sc p.cls "Model" = true
  · rw [if_neg (not_not_intro h1)]
    have h2 : as.any (fun a => !issubclass sc a.cls p.cls) = true := by
      rcases h with h | ⟨a, ha, hfa⟩
      · rw [h1] at h; exact absurd h (by simp)
      · exact List.any_eq_true.2 ⟨a, ha, by rw [hfa]; rfl⟩
    rw [if_pos h2]
    exact ⟨Or.inr rfl, rfl⟩
  · rw [if_pos h1]
    exact ⟨Or.inl rfl, rfl⟩

theorem C2_witness :
    issubclass ⟨[], []⟩ "X" "Model" = false
    ∧ ((merge_model_objects ⟨[], []⟩ ⟨[⟨1, "X", []⟩], []⟩ ⟨1, "X", []⟩ [] false false).1
          = Except.error "Only django.db.models.Model subclasses can be merged"
        ∨ (merge_model_objects ⟨[], []⟩ ⟨[⟨1, "X", []⟩], []⟩ ⟨1, "X", []⟩ [] false false).1
          = Except.error "Only models of same class can be merged")
    ∧ (merge_model_objects ⟨[], []⟩ ⟨[⟨1, "X", []⟩], []⟩ ⟨1, "X", []⟩ [] false false).2
        = ⟨[⟨1, "X", []⟩], []⟩ := by
  refine ⟨rfl, ?_, ?_⟩
  · exact (C2_validation_before_mutation ⟨[], []⟩ ⟨[⟨1, "X", []⟩], []⟩ ⟨1, "X", []⟩ [] false false
      (Or.inl rfl)).1
  · exact (C2_validation_before_mutation ⟨[], []⟩ ⟨[⟨1, "X", []⟩], []⟩ ⟨1, "X", []⟩ [] false false
      (Or.inl rfl)).2

/-- C3: merging an empty alias list returns the primary unchanged and
only saves it once at the end; no other record is touched. -/
theorem C3_merge_empty_aliases (sc : Schema) (db : DB) (p : Record) (md ko : Bool)
    (h : issubclass sc p.cls "Model" = true) :
    merge_model_objects sc db p [] md ko = (Except.ok p, saveRecord db p) := by
  unfold merge_model_objects
  rw [if_neg (not_not_intro h)]
  rw [if_neg (by simp : ¬(([] : List Record).any (fun a => !issubclass sc a.cls p.cls) = true))]
  rfl

theorem C3_witness :
    issubclass ⟨[], [("Person", "Model")]⟩ "Person" "Model" = true
    ∧ merge_model_objects ⟨[], [("Person", "Model")]⟩
        ⟨[⟨1, "Person", [("name", Val.vstr "x")]⟩], []⟩ ⟨1, "Person", [("name", Val.vstr "x")]⟩
        [] true false
      = (Except.ok ⟨1, "Person", [("name", Val.vstr "x")]⟩,
         saveRecord ⟨[⟨1, "Person", [("name", Val.vstr "x")]⟩], []⟩
           ⟨1, "Person", [("name", Val.vstr "x")]⟩) :=
  ⟨rfl, C3_merge_empty_aliases ⟨[], [("Person", "Model")]⟩
    ⟨[⟨1, "Person", [("name", Val.vstr "x")]⟩], []⟩ ⟨1, "Person", [("name", Val.vstr "x")]⟩
    true false rfl⟩

/-- C9: the same-type validation accepts aliases whose class is a strict
subclass of the primary's class: the merge raises no type error and
proceeds. -/
theorem C9_subclass_accepted (sc : Schema) (db : DB) (p : Record) (as : List Record)
    (md ko : Bool) (h1 : issubclass sc p.cls "Model" = true)
    (h2 : ∀ a ∈ as, issubclass sc a.cls p.cls = true) :
    isOkResult (merge_model_objects sc db p as md ko).1 = true := by
  unfold merge_model_objects
  rw [if_neg (not_not_intro h1)]
  have hany : as.any (fun a => !issubclass sc a.cls p.cls) = false := by
    rw [List.any_eq_false]
    intro a ha
    rw [h2 a ha]
    simp
  rw [if_neg (by rw [hany]; exact Bool.false_ne_true)]
  rfl

theorem C9_witness :
    issubclass ⟨[], [("Employee", "Person"), ("Person", "Model")]⟩ "Person" "Model" = true
    ∧ issubclass ⟨[], [("Employee", "Person"), ("Person", "Model")]⟩ "Employee" "Person" = true
    ∧ "Employee" ≠ "Person"
    ∧ isOkResult (merge_model_objects ⟨[], [("Employee", "Person"), ("Person", "Model")]⟩
        ⟨[⟨1, "Person", []⟩, ⟨2, "Employee", []⟩], []⟩ ⟨1, "Person", []⟩
        [⟨2, "Employee", []⟩] false false).1 = true := by
  refine ⟨rfl, rfl, by decide, ?_⟩
  exact C9_subclass_accepted ⟨[], [("Employee", "Person"), ("Person", "Model")]⟩
    ⟨[⟨1, "Person", []⟩, ⟨2, "Employee", []⟩], []⟩ ⟨1, "Person", []⟩
    [⟨2, "Employee", []⟩] false false rfl (by decide)

/-- C10: the returned primary (hence the entire back-fill outcome) is the
same whether or not `migrate_data` is set: back-fill runs on every call,
only the relation-migration step is conditioned on the flag. -/
theorem C10_backfill_independent_of_flag (sc : Schema) (db : DB) (p : Record)
    (as : List Record) (ko : Bool) :
    (merge_model_objects sc db p as true ko).1
      = (merge_model_objects sc db p as false ko).1 := by
  unfold merge_model_objects
  by_cases h1 : issubclass sc p.cls "Model" = true
  · rw [if_neg (not_not_intro h1), if_neg (not_not_intro h1)]
    by_cases h2 : as.any (fun a => !issubclass sc a.cls p.cls) = true
    · rw [if_pos h2, if_pos h2]
    · rw [if_neg h2, if_neg h2]
      dsimp only
      have := foldl_process_snd sc ko as
        (db, p, ((modelMeta sc p.cls).local_fields.filter
          (fun f => isBlank (getAttr p f.attname))).map LocalField.attname)
        (db, p, ((modelMeta sc p.cls).local_fields.filter
          (fun f => isBlank (getAttr p f.attname))).map LocalField.attname) rfl
      rw [congrArg Prod.fst this]
  · rw [if_pos h1, if_pos h1]

/-- C4: back-fill never overwrites a field of the primary object that was
non-blank before the merge: the returned primary carries the original
value of every such field. -/
theorem C4_backfill_preserves_nonblank (sc : Schema) (db : DB) (p p' : Record)
    (as : List Record) (md ko : Bool) (f0 : String)
    (hres : (merge_model_objects sc db p as md ko).1 = Except.ok p')
    (hnb : isBlank (getAttr p f0) = false) :
    getAttr p' f0 = getAttr p f0 := by
  unfold merge_model_objects at hres
  by_cases h1 : issubclass sc p.cls "Model" = true
  · rw [if_neg (not_not_intro h1)] at hres
    by_cases h2 : as.any (fun a => !issubclass sc a.cls p.cls) = true
    · rw [if_pos h2] at hres
      exact absurd hres (by simp)
    · rw [if_neg h2] at hres
      have hres' : Except.ok ((as.foldl (process_alias sc md ko)
          (db, p, ((modelMeta sc p.cls).local_fields.filter
            (fun f => isBlank (getAttr p f.attname))).map LocalField.attname)).2.1)
          = Except.ok p' := hres
      have hp' : (as.foldl (process_alias sc md ko)
          (db, p, ((modelMeta sc p.cls).local_fields.filter
            (fun f => isBlank (getAttr p f.attname))).map LocalField.attname)).2.1
          = p' := by injection hres'
      have hf0 : f0 ∉ ((modelMeta sc p.cls).local_fields.filter
          (fun f => isBlank (getAttr p f.attname))).map LocalField.attname := by
        intro hmem
        obtain ⟨fl, hfl, hfla⟩ := List.mem_map.1 hmem
        have hbl := (List.mem_filter.1 hfl).2
        rw [hfla] at hbl
        rw [hbl] at hnb
        exact absurd hnb (by simp)
      have hP := foldl_pres_prop (process_alias sc md ko)
        (fun st => getAttr st.2.1 f0 = getAttr p f0 ∧ f0 ∉ st.2.2)
        (by
          intro st a hP
          rw [process_alias_eq]
          refine ⟨?_, ?_⟩
          · dsimp only
            rw [backfill_not_mem a st.2.2 st.2.1 f0 hP.2]
            exact hP.1
          · dsimp only
            intro hmem
            exact hP.2 (List.mem_filter.1 hmem).1)
        as (db, p, ((modelMeta sc p.cls).local_fields.filter
            (fun f => isBlank (getAttr p f.attname))).map LocalField.attname) ⟨rfl, hf0⟩
      rw [← hp']
      exact hP.1
  · rw [if_pos h1] at hres
    exact absurd hres (by simp)

theorem C4_witness :
    (merge_model_objects ⟨[], [("Person", "Model")]⟩
        ⟨[⟨1, "Person", [("name", Val.vstr "keep")]⟩, ⟨2, "Person", [("name", Val.vstr "other")]⟩], []⟩
        ⟨1, "Person", [("name", Val.vstr "keep")]⟩ [⟨2, "Person", [("name", Val.vstr "other")]⟩]
        false false).1
      = Except.ok ⟨1, "Person", [("name", Val.vstr "keep")]⟩
    ∧ isBlank (getAttr ⟨1, "Person", [("name", Val.vstr "keep")]⟩ "name") = false
    ∧ getAttr ⟨1, "Person", [("name", Val.vstr "keep")]⟩ "name"
      = getAttr ⟨1, "Person", [("name", Val.vstr "keep")]⟩ "name" := by
  refine ⟨rfl, rfl, ?_⟩
  exact C4_backfill_preserves_nonblank ⟨[], [("Person", "Model")]⟩
    ⟨[⟨1, "Person", [("name", Val.vstr "keep")]⟩, ⟨2, "Person", [("name", Val.vstr "other")]⟩], []⟩
    ⟨1, "Person", [("name", Val.vstr "keep")]⟩ ⟨1, "Person", [("name", Val.vstr "keep")]⟩
    [⟨2, "Person", [("name", Val.vstr "other")]⟩] false false "name" rfl rfl

/-- C5: for a field blank on the primary, back-fill takes the value of
the first alias (in order) with a non-blank value for it; later aliases
cannot override it. -/
theorem C5_backfill_first_nonblank_wins (sc : Schema) (db : DB) (p p' a : Record)
    (pre post : List Record) (md ko : Bool) (f0 : String)
    (hres : (merge_model_objects sc db p (pre ++ a :: post) md ko).1 = Except.ok p')
    (hfld : ∃ fl ∈ (modelMeta sc p.cls).local_fields, fl.attname = f0)
    (hblank : isBlank (getAttr p f0) = true)
    (hpre : ∀ b ∈ pre, isBlank (getAttr b f0) = true)
    (hnb : isBlank (getAttr a f0) = false) :
    getAttr p' f0 = getAttr a f0 := by
  unfold merge_model_objects at hres
  by_cases h1 : issubclass sc p.cls "Model" = true
  · rw [if_neg (not_not_intro h1)] at hres
    by_cases h2 : (pre ++ a :: post).any (fun x => !issubclass sc x.cls p.cls) = true
    · rw [if_pos h2] at hres
      exact absurd hres (by simp)
    · rw [if_neg h2] at hres
      have hres' : Except.ok (((pre ++ a :: post).foldl (process_alias sc md ko)
          (db, p, ((modelMeta sc p.cls).local_fields.filter
            (fun f => isBlank (getAttr p f.attname))).map LocalField.attname)).2.1)
          = Except.ok p' := hres
      have hp' : ((pre ++ a :: post).foldl (process_alias sc md ko)
          (db, p, ((modelMeta sc p.cls).local_fields.filter
            (fun f => isBlank (getAttr p f.attname))).map LocalField.attname)).2.1
          = p' := by injection hres'
      have hf0mem : f0 ∈ ((modelMeta sc p.cls).local_fields.filter
          (fun f => isBlank (getAttr p f.attname))).map LocalField.attname := by
        obtain ⟨fl, hfl, hfla⟩ := hfld
        exact List.mem_map.2 ⟨fl, List.mem_filter.2 ⟨hfl, by rw [hfla]; exact hblank⟩, hfla⟩
      rw [List.foldl_append] at hp'
      -- phase 1: folding the earlier aliases keeps the field blank and pending
      have hP1 := foldl_pres_mem (process_alias sc md ko)
        (fun st => getAttr st.2.1 f0 = getAttr p f0 ∧ f0 ∈ st.2.2) pre
        (by
          intro st b hb hP
          rw [process_alias_eq]
          refine ⟨?_, ?_⟩
          · dsimp only
            rw [backfill_blankval b st.2.2 st.2.1 f0 (hpre b hb)]
            exact hP.1
          · dsimp only
            exact List.mem_filter.2 ⟨hP.2, hpre b hb⟩)
        (db, p, ((modelMeta sc p.cls).local_fields.filter
            (fun f => isBlank (getAttr p f.attname))).map LocalField.attname) ⟨rfl, hf0mem⟩
      -- the step at `a` fills the field and removes it from the candidates
      rw [List.foldl_cons] at hp'
      have hstepP : getAttr (process_alias sc md ko
            (pre.foldl (process_alias sc md ko)
              (db, p, ((modelMeta sc p.cls).local_fields.filter
                (fun f => isBlank (getAttr p f.attname))).map LocalField.attname)) a).2.1 f0
          = getAttr a f0
          ∧ f0 ∉ (process_alias sc md ko
            (pre.foldl (process_alias sc md ko)
              (db, p, ((modelMeta sc p.cls).local_fields.filter
                (fun f => isBlank (getAttr p f.attname))).map LocalField.attname)) a).2.2 := by
        rw [process_alias_eq]
        refine ⟨?_, ?_⟩
        · dsimp only
          exact backfill_sets a _ _ f0 hP1.2 hnb
        · dsimp only
          intro hmem
          have := (List.mem_filter.1 hmem).2
          rw [hnb] at this
          exact absurd this (by simp)
      -- phase 2: later aliases cannot touch the field any more
      have hP2 := foldl_pres_prop (process_alias sc md ko)
        (fun st => getAttr st.2.1 f0 = getAttr a f0 ∧ f0 ∉ st.2.2)
        (by
          intro st b hP
          rw [process_alias_eq]
          refine ⟨?_, ?_⟩
          · dsimp only
            rw [backfill_not_mem b st.2.2 st.2.1 f0 hP.2]
            exact hP.1
          · dsimp only
            intro hmem
            exact hP.2 (List.mem_filter.1 hmem).1)
        post _ hstepP
      rw [← hp']
      exact hP2.1
  · rw [if_pos h1] at hres
    exact absurd hres (by simp)

theorem C5_witness :
    (merge_model_objects
        ⟨[⟨"Person", [⟨"name", false, none, "", ""⟩], [], [], [], []⟩], [("Person", "Model")]⟩
        ⟨[⟨1, "Person", [("name", Val.vnone)]⟩], []⟩
        ⟨1, "Person", [("name", Val.vnone)]⟩
        [⟨2, "Person", [("name", Val.vnone)]⟩, ⟨3, "Person", [("name", Val.vstr "first")]⟩,
         ⟨4, "Person", [("name", Val.vstr "second")]⟩] false true).1
      = Except.ok ⟨1, "Person", [("name", Val.vstr "first")]⟩
    ∧ getAttr ⟨1, "Person", [("name", Val.vstr "first")]⟩ "name"
        = getAttr ⟨3, "Person", [("name", Val.vstr "first")]⟩ "name" := by
  refine ⟨rfl, ?_⟩
  exact C5_backfill_first_nonblank_wins
    ⟨[⟨"Person", [⟨"name", false, none, "", ""⟩], [], [], [], []⟩], [("Person", "Model")]⟩
    ⟨[⟨1, "Person", [("name", Val.vnone)]⟩], []⟩
    ⟨1, "Person", [("name", Val.vnone)]⟩ ⟨1, "Person", [("name", Val.vstr "first")]⟩
    ⟨3, "Person", [("name", Val.vstr "first")]⟩
    [⟨2, "Person", [("name", Val.vnone)]⟩]
    [⟨4, "Person", [("name", Val.vstr "second")]⟩] false true "name"
    rfl ⟨⟨"name", false, none, "", ""⟩, by decide, rfl⟩ rfl (by decide) rfl

/-- C6: for a one-to-one relationship where the alias has a linked record:
if the primary has no linked record, the linked record is re-pointed to
the primary and persisted (every other row untouched); if the primary
already has one, nothing at all is modified and no error is raised. -/
theorem C6_one_to_one_precedence (db : DB) (d : RelDesc) (aOid pOid : Nat) (r : Record)
    (hacc : d.accessor.isSome = true)
    (hfind : db.records.find?
        (fun x => x.cls == d.related_cls && getAttr x d.field_name == Val.vref aOid)
      = some r) :
    ((db.records.any
        (fun x => x.cls == d.related_cls && getAttr x d.field_name == Val.vref pOid) = false →
      (o2oStep db d aOid pOid).records
        = db.records.map
            (fun x => if x.oid = r.oid then setAttr r d.field_name (Val.vref pOid) else x)
      ∧ (o2oStep db d aOid pOid).m2mLinks = db.m2mLinks)
    ∧ (db.records.any
        (fun x => x.cls == d.related_cls && getAttr x d.field_name == Val.vref pOid) = true →
      o2oStep db d aOid pOid = db)) := by
  constructor
  · intro hany
    unfold o2oStep
    rw [if_pos hacc, hfind]
    dsimp only
    rw [if_neg (by rw [hany]; exact Bool.false_ne_true)]
    refine ⟨?_, saveRecord_links _ _⟩
    rw [saveRecord_records]
    apply List.map_congr_left
    intro x _
    rw [setAttr_oid]
  · intro hany
    unfold o2oStep
    rw [if_pos hacc, hfind]
    dsimp only
    rw [if_pos hany]

theorem C6_witness :
    (RelDesc.mk (some "profile") "person" "Profile").accessor.isSome = true
    ∧ (DB.mk [⟨10, "Profile", [("person", Val.vref 2)]⟩] []).records.find?
        (fun x => x.cls == (RelDesc.mk (some "profile") "person" "Profile").related_cls
          && getAttr x (RelDesc.mk (some "profile") "person" "Profile").field_name
            == Val.vref 2)
      = some ⟨10, "Profile", [("person", Val.vref 2)]⟩
    ∧ (DB.mk [⟨10, "Profile", [("person", Val.vref 2)]⟩] []).records.any
        (fun x => x.cls == (RelDesc.mk (some "profile") "person" "Profile").related_cls
          && getAttr x (RelDesc.mk (some "profile") "person" "Profile").field_name
            == Val.vref 1) = false
    ∧ (o2oStep (DB.mk [⟨10, "Profile", [("person", Val.vref 2)]⟩] [])
        (RelDesc.mk (some "profile") "person" "Profile") 2 1).records
      = (DB.mk [⟨10, "Profile", [("person", Val.vref 2)]⟩] []).records.map
          (fun x => if x.oid = 10 then
            setAttr ⟨10, "Profile", [("person", Val.vref 2)]⟩ "person" (Val.vref 1) else x) := by
  refine ⟨rfl, rfl, rfl, ?_⟩
  exact ((C6_one_to_one_precedence (DB.mk [⟨10, "Profile", [("person", Val.vref 2)]⟩] [])
    (RelDesc.mk (some "profile") "person" "Profile") 2 1
    ⟨10, "Profile", [("person", Val.vref 2)]⟩ rfl rfl).1 rfl).1

/-- C7: the direct-reference migration runs exactly when `migrate_data`
is set.  Without the flag (and with no other descriptor categories in
play) the store is untouched apart from the alias deletion; with the
flag, every record referencing the alias through a non-auto local-field
descriptor with a reverse accessor ends up re-pointed to the primary and
persisted. -/
theorem C7_migrate_data_iff_direct (sc : Schema) (ko : Bool) (db : DB) (p : Record)
    (bl : List String) (a : Record) :
    (((modelMeta sc a.cls).m2m_descs = [] → (modelMeta sc a.cls).o2o_descs = [] →
      (modelMeta sc a.cls).rev_fk_descs = [] →
      (process_alias sc false ko (db, p, bl) a).1
        = (if ko then db else deleteRecord db a.oid))
    ∧ (∀ (f : LocalField) (r : Record),
        f ∈ (modelMeta sc a.cls).local_fields → f.is_auto = false →
        f.accessor.isSome = true → r ∈ db.records → r.cls = f.related_cls →
        getAttr r f.field_name = Val.vref a.oid →
        (db.records.map Record.oid).Nodup → a.oid ≠ p.oid → r.oid ≠ a.oid →
        ∃ r' ∈ (process_alias sc true ko (db, p, bl) a).1.records,
          r'.oid = r.oid ∧ getAttr r' f.field_name = Val.vref p.oid)) := by
  constructor
  · intro h1 h2 h3
    rw [process_alias_eq]
    dsimp only
    rw [h1, h2, h3]
    cases ko <;> rfl
  · intro f r hf hauto hacc hr hcls hval hnd hap hra
    rw [process_alias_eq]
    dsimp only
    rw [if_pos rfl]
    set m := modelMeta sc a.cls with hm
    set dbD := directPhase m.local_fields a.oid p.oid db with hdbD
    have hcharD := directPhase_char m.local_fields a.oid p.oid db hnd
    -- after the direct phase the record is re-pointed
    have hD : ∃ rD ∈ dbD.records, rD.oid = r.oid ∧ getAttr rD f.field_name = Val.vref p.oid := by
      refine ⟨(m.local_fields.map lfTriple).foldl (repTriple a.oid p.oid) r, ?_, ?_, ?_⟩
      · rw [hdbD, hcharD.1]
        exact List.mem_map.2 ⟨r, hr, rfl⟩
      · rw [foldl_repTriple_oid]
      · exact foldl_repTriple_sets a.oid p.oid hap (m.local_fields.map lfTriple) r
          (lfTriple f) (List.mem_map.2 ⟨f, hf, rfl⟩)
          (by rw [lfTriple]; dsimp only; rw [hauto, hacc]; rfl)
          (by rw [lfTriple]; dsimp only; exact hcls.symm)
          (by rw [lfTriple]; dsimp only; exact hval)
    obtain ⟨rD, hrD, hrDoid, hrDval⟩ := hD
    have hndD : (dbD.records.map Record.oid).Nodup := by
      rw [hdbD, hcharD.2.1]; exact hnd
    -- the later phases keep the re-pointed value
    set dbM := m2mPhase m.m2m_descs a.oid p.oid dbD with hdbM
    set dbO := o2oPhase m.o2o_descs a.oid p.oid dbM with hdbO
    set dbR := revFkPhase m.rev_fk_descs a.oid p.oid dbO with hdbR
    have hndM : (dbM.records.map Record.oid).Nodup := by
      rw [hdbM, m2mPhase_oidmap]; exact hndD
    have hndO : (dbO.records.map Record.oid).Nodup := by
      rw [hdbO, o2oPhase_oidmap]; exact hndM
    have hcharR := revFkPhase_char m.rev_fk_descs a.oid p.oid dbO hndO
    have hkeep : ∀ (dbA dbB : DB), Evolves p.oid dbA dbB →
        dbB.records.map Record.oid = dbA.records.map Record.oid →
        (dbA.records.map Record.oid).Nodup →
        (∃ x ∈ dbA.records, x.oid = r.oid ∧ getAttr x f.field_name = Val.vref p.oid) →
        ∃ x ∈ dbB.records, x.oid = r.oid ∧ getAttr x f.field_name = Val.vref p.oid := by
      intro dbA dbB hE hoid hndA hex
      obtain ⟨x, hx, hxoid, hxval⟩ := hex
      have : r.oid ∈ dbB.records.map Record.oid := by
        rw [hoid]
        exact List.mem_map.2 ⟨x, hx, hxoid⟩
      obtain ⟨y, hy, hyoid⟩ := List.mem_map.1 this
      obtain ⟨x', hx', hxo', _, hv⟩ := hE.1 y hy
      have hxx : x' = x := oid_inj hndA hx' hx (by rw [hxo', hyoid, hxoid])
      refine ⟨y, hy, hyoid, ?_⟩
      rcases hv f.field_name with h | h
      · rw [h, hxx, hxval]
      · exact h
    have hM := hkeep dbD dbM (hdbM ▸ evolves_m2mPhase m.m2m_descs a.oid p.oid dbD)
      (by rw [hdbM, m2mPhase_oidmap]) hndD ⟨rD, hrD, hrDoid, hrDval⟩
    have hO := hkeep dbM dbO (hdbO ▸ evolves_o2oPhase m.o2o_descs a.oid p.oid dbM)
      (by rw [hdbO, o2oPhase_oidmap]) hndM hM
    have hR := hkeep dbO dbR (hdbR ▸ evolves_revFkPhase m.rev_fk_descs a.oid p.oid dbO hndO)
      (by rw [hdbR, hcharR.2.1]) hndO hO
    obtain ⟨rR, hrR, hrRoid, hrRval⟩ := hR
    refine ⟨rR, ?_, hrRoid, hrRval⟩
    cases ko with
    | true => exact hrR
    | false =>
      show rR ∈ (deleteRecord dbR a.oid).records
      rw [deleteRecord_records]
      refine List.mem_filter.2 ⟨hrR, ?_⟩
      simp only [decide_eq_true_eq]
      rw [hrRoid]
      exact hra

theorem C7_witness :
    (modelMeta ⟨[⟨"Person", [⟨"boss_id", false, some "subordinates", "boss", "Person"⟩],
        [], [], [], []⟩], [("Person", "Model")]⟩ "Person").m2m_descs = []
    ∧ (process_alias ⟨[⟨"Person", [⟨"boss_id", false, some "subordinates", "boss", "Person"⟩],
        [], [], [], []⟩], [("Person", "Model")]⟩ false false
        (⟨[⟨1, "Person", []⟩, ⟨2, "Person", []⟩, ⟨4, "Person", [("boss", Val.vref 2)]⟩], []⟩,
         ⟨1, "Person", []⟩, []) ⟨2, "Person", []⟩).1
      = deleteRecord ⟨[⟨1, "Person", []⟩, ⟨2, "Person", []⟩,
          ⟨4, "Person", [("boss", Val.vref 2)]⟩], []⟩ 2
    ∧ ((process_alias ⟨[⟨"Person", [⟨"boss_id", false, some "subordinates", "boss", "Person"⟩],
        [], [], [], []⟩], [("Person", "Model")]⟩ true false
        (⟨[⟨1, "Person", []⟩, ⟨2, "Person", []⟩, ⟨4, "Person", [("boss", Val.vref 2)]⟩], []⟩,
         ⟨1, "Person", []⟩, []) ⟨2, "Person", []⟩).1.records.any
        (fun r' => r'.oid == 4 && getAttr r' "boss" == Val.vref 1)) = true := by
  refine ⟨rfl, ?_, ?_⟩
  · exact (C7_migrate_data_iff_direct
      ⟨[⟨"Person", [⟨"boss_id", false, some "subordinates", "boss", "Person"⟩],
        [], [], [], []⟩], [("Person", "Model")]⟩ false
      ⟨[⟨1, "Person", []⟩, ⟨2, "Person", []⟩, ⟨4, "Person", [("boss", Val.vref 2)]⟩], []⟩
      ⟨1, "Person", []⟩ [] ⟨2, "Person", []⟩).1 rfl rfl rfl
  · obtain ⟨r', hmem, hoid, hval⟩ := (C7_migrate_data_iff_direct
      ⟨[⟨"Person", [⟨"boss_id", false, some "subordinates", "boss", "Person"⟩],
        [], [], [], []⟩], [("Person", "Model")]⟩ false
      ⟨[⟨1, "Person", []⟩, ⟨2, "Person", []⟩, ⟨4, "Person", [("boss", Val.vref 2)]⟩], []⟩
      ⟨1, "Person", []⟩ [] ⟨2, "Person", []⟩).2
      ⟨"boss_id", false, some "subordinates", "boss", "Person"⟩
      ⟨4, "Person", [("boss", Val.vref 2)]⟩
      (by decide) rfl rfl (by decide) rfl rfl (by decide) (by decide) (by decide)
    exact List.any_eq_true.2 ⟨r', hmem, by rw [hoid, hval]; rfl⟩

/-- C1 counterexample: a merge with `migrate_data` enabled that completes
without error, after which three remaining records still reference a
deleted alias: a one-to-one linked record left alone because the primary
already had its own link, a record with a generic-relationship field
(the collected `generic_fields` list is never used), and the saved
primary itself, whose blank field was back-filled with a reference to
the other alias. -/
theorem C1_counterexample :
    isOkResult (merge_model_objects
      ⟨[⟨"Person",
          [⟨"id", true, none, "", ""⟩, ⟨"boss", false, some "subordinates", "boss", "Person"⟩],
          [], [⟨some "profile", "person", "Profile"⟩],
          [⟨some "subordinates", "boss", "Person"⟩], []⟩,
        ⟨"Note", [], [], [], [], ["target"]⟩], [("Person", "Model")]⟩
      ⟨[⟨1, "Person", [("id", Val.vint 1), ("boss", Val.vnone)]⟩,
        ⟨2, "Person", [("id", Val.vint 2), ("boss", Val.vref 3)]⟩,
        ⟨3, "Person", [("id", Val.vint 3), ("boss", Val.vnone)]⟩,
        ⟨10, "Profile", [("person", Val.vref 1)]⟩,
        ⟨11, "Profile", [("person", Val.vref 2)]⟩,
        ⟨20, "Note", [("target", Val.vref 2)]⟩,
        ⟨4, "Person", [("id", Val.vint 4), ("boss", Val.vref 3)]⟩], []⟩
      ⟨1, "Person", [("id", Val.vint 1), ("boss", Val.vnone)]⟩
      [⟨2, "Person", [("id", Val.vint 2), ("boss", Val.vref 3)]⟩,
       ⟨3, "Person", [("id", Val.vint 3), ("boss", Val.vnone)]⟩] true false).1 = true
    ∧ ((merge_model_objects
      ⟨[⟨"Person",
          [⟨"id", true, none, "", ""⟩, ⟨"boss", false, some "subordinates", "boss", "Person"⟩],
          [], [⟨some "profile", "person", "Profile"⟩],
          [⟨some "subordinates", "boss", "Person"⟩], []⟩,
        ⟨"Note", [], [], [], [], ["target"]⟩], [("Person", "Model")]⟩
      ⟨[⟨1, "Person", [("id", Val.vint 1), ("boss", Val.vnone)]⟩,
        ⟨2, "Person", [("id", Val.vint 2), ("boss", Val.vref 3)]⟩,
        ⟨3, "Person", [("id", Val.vint 3), ("boss", Val.vnone)]⟩,
        ⟨10, "Profile", [("person", Val.vref 1)]⟩,
        ⟨11, "Profile", [("person", Val.vref 2)]⟩,
        ⟨20, "Note", [("target", Val.vref 2)]⟩,
        ⟨4, "Person", [("id", Val.vint 4), ("boss", Val.vref 3)]⟩], []⟩
      ⟨1, "Person", [("id", Val.vint 1), ("boss", Val.vnone)]⟩
      [⟨2, "Person", [("id", Val.vint 2), ("boss", Val.vref 3)]⟩,
       ⟨3, "Person", [("id", Val.vint 3), ("boss", Val.vnone)]⟩] true false).2.records.all
        (fun r => (r.oid != 2) && (r.oid != 3))) = true
    ∧ (merge_model_objects
      ⟨[⟨"Person",
          [⟨"id", true, none, "", ""⟩, ⟨"boss", false, some "subordinates", "boss", "Person"⟩],
          [], [⟨some "profile", "person", "Profile"⟩],
          [⟨some "subordinates", "boss", "Person"⟩], []⟩,
        ⟨"Note", [], [], [], [], ["target"]⟩], [("Person", "Model")]⟩
      ⟨[⟨1, "Person", [("id", Val.vint 1), ("boss", Val.vnone)]⟩,
        ⟨2, "Person", [("id", Val.vint 2), ("boss", Val.vref 3)]⟩,
        ⟨3, "Person", [("id", Val.vint 3), ("boss", Val.vnone)]⟩,
        ⟨10, "Profile", [("person", Val.vref 1)]⟩,
        ⟨11, "Profile", [("person", Val.vref 2)]⟩,
        ⟨20, "Note", [("target", Val.vref 2)]⟩,
        ⟨4, "Person", [("id", Val.vint 4), ("boss", Val.vref 3)]⟩], []⟩
      ⟨1, "Person", [("id", Val.vint 1), ("boss", Val.vnone)]⟩
      [⟨2, "Person", [("id", Val.vint 2), ("boss", Val.vref 3)]⟩,
       ⟨3, "Person", [("id", Val.vint 3), ("boss", Val.vnone)]⟩] true false).2.records
      = [⟨1, "Person", [("id", Val.vint 1), ("boss", Val.vref 3)]⟩,
         ⟨10, "Profile", [("person", Val.vref 1)]⟩,
         ⟨11, "Profile", [("person", Val.vref 2)]⟩,
         ⟨20, "Note", [("target", Val.vref 2)]⟩,
         ⟨4, "Person", [("id", Val.vint 4), ("boss", Val.vref 1)]⟩] := by
  refine ⟨rfl, rfl, rfl⟩

/-- C1 (amended): after a merge with relation migration enabled and the
aliases deleted, and provided (i) every stored reference to an alias is
declared through a reverse-foreign-key descriptor of the alias's class
with a reverse accessor, (ii) every live-ownered many-to-many link with an
alias member is declared through a many-to-many descriptor, and (iii)
neither the in-memory primary nor any alias instance itself carries a
reference to an alias, then no remaining record and no remaining link with
a surviving owner references a deleted alias, and every reference a
surviving non-primary record previously held to an alias now points to
the primary.  (The unamended claim fails for one-to-one records silently
skipped when the primary already has a link, for generic-relationship
references, which the procedure never migrates, and for references written
back from the primary instance itself at the final save.) -/
theorem C1_no_dangling_references (sc : Schema) (db : DB) (p : Record) (as : List Record)
    (hval1 : issubclass sc p.cls "Model" = true)
    (hval2 : ∀ a ∈ as, issubclass sc a.cls p.cls = true)
    (hnd : (db.records.map Record.oid).Nodup)
    (hap : ∀ b ∈ as, b.oid ≠ p.oid)
    (hcov_fk : CoversFk sc db as) (hcov_m2m : CoversM2m sc db as)
    (hmem_alias : ∀ a ∈ as, ∀ fv ∈ a.attrs, ∀ b ∈ as, fv.2 ≠ Val.vref b.oid)
    (hmem_p : ∀ fv ∈ p.attrs, ∀ b ∈ as, fv.2 ≠ Val.vref b.oid) :
    (∀ a ∈ as,
      a.oid ∉ (merge_model_objects sc db p as true false).2.records.map Record.oid)
    ∧ (∀ r ∈ (merge_model_objects sc db p as true false).2.records, ∀ f0 : String,
        ∀ a ∈ as, getAttr r f0 ≠ Val.vref a.oid)
    ∧ (∀ l ∈ (merge_model_objects sc db p as true false).2.m2mLinks, ∀ a ∈ as,
        l.2.2 = a.oid →
        ∀ r ∈ (merge_model_objects sc db p as true false).2.records, r.oid ≠ l.2.1)
    ∧ (∀ r0 ∈ db.records, r0.oid ≠ p.oid →
        ∀ r' ∈ (merge_model_objects sc db p as true false).2.records, r'.oid = r0.oid →
        ∀ f0 : String, ∀ a ∈ as, getAttr r0 f0 = Val.vref a.oid →
          getAttr r' f0 = Val.vref p.oid) := by
  obtain ⟨_, hG1, hG2, hG3, _, hG5⟩ := merge_master sc db p as false hval1 hval2 hnd hap
    hcov_fk hcov_m2m hmem_alias hmem_p
  refine ⟨hG3 rfl, hG1, hG2, ?_⟩
  intro r0 hr0 hne r' hr' hoid f0 a ha hval
  rcases hG5 r0 hr0 hne r' hr' hoid f0 with h | h
  · rw [hval] at h
    exact absurd h (hG1 r' hr' f0 a ha)
  · exact h

theorem C1_witness :
    (2 ∉ (merge_model_objects
        ⟨[⟨"Person", [], [⟨some "tagged", "tags", "Tag"⟩], [],
            [⟨some "subordinates", "boss", "Person"⟩], []⟩], [("Person", "Model")]⟩
        ⟨[⟨1, "Person", [("boss", Val.vnone)]⟩, ⟨2, "Person", [("boss", Val.vnone)]⟩,
          ⟨4, "Person", [("boss", Val.vref 2)]⟩, ⟨7, "Tag", []⟩], [("tags", 7, 2)]⟩
        ⟨1, "Person", [("boss", Val.vnone)]⟩ [⟨2, "Person", [("boss", Val.vnone)]⟩]
        true false).2.records.map Record.oid)
    ∧ getAttr ⟨4, "Person", [("boss", Val.vref 2)]⟩ "boss" = Val.vref 2
    ∧ getAttr ⟨4, "Person", [("boss", Val.vref 1)]⟩ "boss" = Val.vref 1 := by
  have hmain := C1_no_dangling_references
    ⟨[⟨"Person", [], [⟨some "tagged", "tags", "Tag"⟩], [],
        [⟨some "subordinates", "boss", "Person"⟩], []⟩], [("Person", "Model")]⟩
    ⟨[⟨1, "Person", [("boss", Val.vnone)]⟩, ⟨2, "Person", [("boss", Val.vnone)]⟩,
      ⟨4, "Person", [("boss", Val.vref 2)]⟩, ⟨7, "Tag", []⟩], [("tags", 7, 2)]⟩
    ⟨1, "Person", [("boss", Val.vnone)]⟩ [⟨2, "Person", [("boss", Val.vnone)]⟩]
    rfl (by decide) (by decide) (by decide)
    (by unfold CoversFk; decide) (by unfold CoversM2m; decide) (by decide) (by decide)
  refine ⟨?_, rfl, ?_⟩
  · exact hmain.1 ⟨2, "Person", [("boss", Val.vnone)]⟩ (by decide)
  · exact hmain.2.2.2 ⟨4, "Person", [("boss", Val.vref 2)]⟩ (by decide) (by decide)
      ⟨4, "Person", [("boss", Val.vref 1)]⟩ (by decide) rfl "boss"
      ⟨2, "Person", [("boss", Val.vnone)]⟩ (by decide) rfl

/-- C8 counterexample: a merge with retention and migration enabled after
which the alias record still exists but a one-to-one related record is
still pointing at it (the primary already had its own link, so the
alias's linked record was silently left untouched). -/
theorem C8_counterexample :
    isOkResult (merge_model_objects
      ⟨[⟨"Person", [], [], [⟨some "profile", "person", "Profile"⟩], [], []⟩],
        [("Person", "Model")]⟩
      ⟨[⟨1, "Person", []⟩, ⟨2, "Person", []⟩,
        ⟨10, "Profile", [("person", Val.vref 1)]⟩,
        ⟨11, "Profile", [("person", Val.vref 2)]⟩], []⟩
      ⟨1, "Person", []⟩ [⟨2, "Person", []⟩] true true).1 = true
    ∧ (2 ∈ (merge_model_objects
      ⟨[⟨"Person", [], [], [⟨some "profile", "person", "Profile"⟩], [], []⟩],
        [("Person", "Model")]⟩
      ⟨[⟨1, "Person", []⟩, ⟨2, "Person", []⟩,
        ⟨10, "Profile", [("person", Val.vref 1)]⟩,
        ⟨11, "Profile", [("person", Val.vref 2)]⟩], []⟩
      ⟨1, "Person", []⟩ [⟨2, "Person", []⟩] true true).2.records.map Record.oid)
    ∧ ((merge_model_objects
      ⟨[⟨"Person", [], [], [⟨some "profile", "person", "Profile"⟩], [], []⟩],
        [("Person", "Model")]⟩
      ⟨[⟨1, "Person", []⟩, ⟨2, "Person", []⟩,
        ⟨10, "Profile", [("person", Val.vref 1)]⟩,
        ⟨11, "Profile", [("person", Val.vref 2)]⟩], []⟩
      ⟨1, "Person", []⟩ [⟨2, "Person", []⟩] true true).2.records.any
        (fun r => r.oid == 11 && getAttr r "person" == Val.vref 2)) = true := by
  refine ⟨rfl, by decide, rfl⟩

/-- C8 (amended): each alias row is deleted exactly when retention is not
requested; with retention requested every alias row survives, and — under
the same descriptor-coverage and no-self-reference hypotheses as the
dangling-reference theorem — no surviving record and no link with a
surviving owner still references an alias through the migrated
relationship categories.  (One-to-one records whose re-pointing was
silently skipped because the primary already had a link, and generic
relationship references, may still point at a retained alias.) -/
theorem C8_alias_retention (sc : Schema) (db : DB) (p : Record) (as : List Record)
    (hval1 : issubclass sc p.cls "Model" = true)
    (hval2 : ∀ a ∈ as, issubclass sc a.cls p.cls = true)
    (hnd : (db.records.map Record.oid).Nodup)
    (hap : ∀ b ∈ as, b.oid ≠ p.oid)
    (hcov_fk : CoversFk sc db as) (hcov_m2m : CoversM2m sc db as)
    (hmem_alias : ∀ a ∈ as, ∀ fv ∈ a.attrs, ∀ b ∈ as, fv.2 ≠ Val.vref b.oid)
    (hmem_p : ∀ fv ∈ p.attrs, ∀ b ∈ as, fv.2 ≠ Val.vref b.oid) :
    (∀ a ∈ as, ∀ r ∈ (merge_model_objects sc db p as true false).2.records, r.oid ≠ a.oid)
    ∧ (∀ a ∈ as, a.oid ∈ db.records.map Record.oid →
        a.oid ∈ (merge_model_objects sc db p as true true).2.records.map Record.oid)
    ∧ (∀ r ∈ (merge_model_objects sc db p as true true).2.records, ∀ f0 : String,
        ∀ a ∈ as, getAttr r f0 ≠ Val.vref a.oid)
    ∧ (∀ l ∈ (merge_model_objects sc db p as true true).2.m2mLinks, ∀ a ∈ as,
        l.2.2 = a.oid →
        ∀ r ∈ (merge_model_objects sc db p as true true).2.records, r.oid ≠ l.2.1) := by
  obtain ⟨_, _, _, hDel, _, _⟩ := merge_master sc db p as false hval1 hval2 hnd hap
    hcov_fk hcov_m2m hmem_alias hmem_p
  obtain ⟨_, hG1, hG2, _, hKept, _⟩ := merge_master sc db p as true hval1 hval2 hnd hap
    hcov_fk hcov_m2m hmem_alias hmem_p
  refine ⟨?_, ?_, hG1, hG2⟩
  · intro a ha r hr hro
    exact hDel rfl a ha (List.mem_map.2 ⟨r, hr, hro⟩)
  · intro a ha hmem
    rw [hKept rfl]
    exact hmem

theorem C8_witness :
    (2 ∈ (merge_model_objects
        ⟨[⟨"Person", [], [⟨some "tagged", "tags", "Tag"⟩], [],
            [⟨some "subordinates", "boss", "Person"⟩], []⟩], [("Person", "Model")]⟩
        ⟨[⟨1, "Person", [("boss", Val.vnone)]⟩, ⟨2, "Person", [("boss", Val.vnone)]⟩,
          ⟨4, "Person", [("boss", Val.vref 2)]⟩, ⟨7, "Tag", []⟩], [("tags", 7, 2)]⟩
        ⟨1, "Person", [("boss", Val.vnone)]⟩ [⟨2, "Person", [("boss", Val.vnone)]⟩]
        true true).2.records.map Record.oid)
    ∧ getAttr ⟨4, "Person", [("boss", Val.vref 1)]⟩ "boss" ≠ Val.vref 2 := by
  have hmain := C8_alias_retention
    ⟨[⟨"Person", [], [⟨some "tagged", "tags", "Tag"⟩], [],
        [⟨some "subordinates", "boss", "Person"⟩], []⟩], [("Person", "Model")]⟩
    ⟨[⟨1, "Person", [("boss", Val.vnone)]⟩, ⟨2, "Person", [("boss", Val.vnone)]⟩,
      ⟨4, "Person", [("boss", Val.vref 2)]⟩, ⟨7, "Tag", []⟩], [("tags", 7, 2)]⟩
    ⟨1, "Person", [("boss", Val.vnone)]⟩ [⟨2, "Person", [("boss", Val.vnone)]⟩]
    rfl (by decide) (by decide) (by decide)
    (by unfold CoversFk; decide) (by unfold CoversM2m; decide) (by decide) (by decide)
  refine ⟨?_, ?_⟩
  · exact hmain.2.1 ⟨2, "Person", [("boss", Val.vnone)]⟩ (by decide) (by decide)
  · exact hmain.2.2.1 ⟨4, "Person", [("boss", Val.vref 1)]⟩ (by decide) "boss"
      ⟨2, "Person", [("boss", Val.vnone)]⟩ (by decide)

end DjangoMerge
